import Mathlib

/-!
# Verification of the product-name crawler pipeline (`crawler3.py`)

This file gives a shallow embedding of the name-resolution pipeline of
`crawler3.py` — the string-cleaning rules, the page classifier, the name
extractor, the single-URL processor, the HTTP fetch loop and the
per-product-id deduplicator — and proves or refutes the specified
properties about them.

Python strings are modelled as `List Char`; Python `None` vs. a string
value is modelled with `Option`.  Network and HTML-parsing effects
(`requests`, `cloudscraper`, `BeautifulSoup`) are modelled as explicit
oracle inputs: an `Html` value carries the raw page text together with
the parse results the source code reads from the parsed tree, and the
fetch loop takes the per-attempt responses as a function argument.
-/

namespace Crawler

/-- Python strings are modelled as lists of characters. -/
abbrev Str := List Char

/-- The whitespace class used by Python's `str.split()` / `str.strip()`
(restricted to the ASCII whitespace characters). -/
def pyIsSpace (c : Char) : Bool :=
  c = ' ' || c = '\t' || c = '\n' || c = '\r' || c = Char.ofNat 11 || c = Char.ofNat 12

/-- Python `str.lower()` (ASCII case mapping). -/
def pyLower (s : Str) : Str := s.map Char.toLower

/-- Python substring containment `needle in hay`. -/
def strContains (hay needle : Str) : Bool :=
  match hay with
  | [] => needle.isEmpty
  | _ :: t => needle.isPrefixOf hay || strContains t needle

/-- The part of `s` before the first occurrence of `sep`
(Python `s.split(sep)[0]`); the whole string when `sep` does not occur. -/
def takeBefore (sep : Str) : Str → Str
  | [] => []
  | c :: s => if sep.isPrefixOf (c :: s) then [] else c :: takeBefore sep s

/-- Accumulator-passing scanner behind `wordsOf`: `cur` is the reversed
word currently being read. -/
def wordsAux (cur : Str) : Str → List Str
  | [] => if cur.isEmpty then [] else [cur.reverse]
  | c :: s =>
    if pyIsSpace c then
      if cur.isEmpty then wordsAux [] s else cur.reverse :: wordsAux [] s
    else wordsAux (c :: cur) s

/-- The maximal non-whitespace runs of `s`, in order
(Python `s.split()` with no argument). -/
def wordsOf (s : Str) : List Str := wordsAux [] s

/-- Python `" ".join(words)`. -/
def joinWords : List Str → Str
  | [] => []
  | [w] => w
  | w :: ws => w ++ ' ' :: joinWords ws

/-- Python `" ".join(s.split())`: collapse all whitespace runs to single
spaces and drop leading/trailing whitespace. -/
def collapse (s : Str) : Str := joinWords (wordsOf s)

/-- Python `s.strip()`. -/
def pyStrip (s : Str) : Str := List.rdropWhile pyIsSpace (s.dropWhile pyIsSpace)

/-- Python `s.strip(chars)` for an explicit character set. -/
def pyStripChars (chars : List Char) (s : Str) : Str :=
  List.rdropWhile (fun c => chars.contains c)
    (s.dropWhile (fun c => chars.contains c))

/-- Python `s.replace("\n", " ").replace("\t", " ").replace("\r", " ")`. -/
def replaceNTR (s : Str) : Str :=
  s.map (fun c => if c = '\n' || c = '\t' || c = '\r' then ' ' else c)

/-- The title-separator tokens of `crawler3.py`
(`[" | ", " - ", " — ", " – "]`). -/
def titleSeps : List Str :=
  [" | ".toList, " - ".toList, " — ".toList, " – ".toList]

/-- One step of the separator-truncation loop:
`if sep in cleaned: cleaned = cleaned.split(sep)[0].strip()`. -/
def sepStep (t : Str) (sep : Str) : Str :=
  if strContains t sep then pyStrip (takeBefore sep t) else t

/-- The full separator-truncation loop over `titleSeps`. -/
def sepCut (s : Str) : Str := titleSeps.foldl sepStep s

/-- The marketing-phrase tokens stripped by the selector stage
(`["Kaufen Sie ", "Achetez ", "Acheter ", "Buy ", "Compra ", "Compre "]`). -/
def marketingPrefixes : List Str :=
  ["Kaufen Sie ".toList, "Achetez ".toList, "Acheter ".toList,
   "Buy ".toList, "Compra ".toList, "Compre ".toList]

/-- One step of the marketing-phrase loop:
`if text.startswith(pref): text = text[len(pref):].strip()`. -/
def prefStep (t : Str) (p : Str) : Str :=
  if p.isPrefixOf t then pyStrip (t.drop p.length) else t

/-- The full marketing-phrase stripping loop. -/
def prefCut (s : Str) : Str := marketingPrefixes.foldl prefStep s

/-- The brand/site tokens of the structured-data stage
(`["glamira", "store", "shop"]`). -/
def brandTokens : List Str := ["glamira".toList, "store".toList, "shop".toList]

/-- The character set `" -|•"` used by `strip(" -|•")`. -/
def brandStripChars : List Char := [' ', '-', '|', '•']

/-- One step of the brand-token loop:
`if cleaned.lower().endswith(token): cleaned = cleaned[:-len(token)].strip(" -|•")`. -/
def tokStep (t : Str) (tok : Str) : Str :=
  if List.isSuffixOf tok (pyLower t) then
    pyStripChars brandStripChars (t.take (t.length - tok.length))
  else t

/-- The full brand-token stripping loop. -/
def tokCut (s : Str) : Str := brandTokens.foldl tokStep s

/-- The cleaning applied by the markup-selector stage of
`extract_product_name` (lines 443–451): collapse whitespace, truncate at
title separators, strip marketing prefixes. -/
def cleanSel (s : Str) : Str := prefCut (sepCut (collapse (replaceNTR s)))

/-- The cleaning applied by the structured-data stage of
`extract_product_name` (lines 363–370): collapse whitespace, truncate at
title separators, strip trailing brand tokens. -/
def cleanLd (s : Str) : Str := tokCut (sepCut (collapse (replaceNTR s)))

/-! ## JSON values (`json.loads` results) -/

/-- JSON values as produced by `json.loads`.  Numbers are modelled as
integers (structured-data type tags and product names are never floats). -/
inductive Json where
  | null
  | bool (b : Bool)
  | num (n : Int)
  | str (s : Str)
  | arr (elems : List Json)
  | obj (fields : List (Str × Json))

/-- Python dict lookup on the key/value list of a parsed JSON object.
`json.loads` keeps the last of duplicate keys, so the lookup returns the
last binding. -/
def jget (kvs : List (Str × Json)) (k : Str) : Option Json :=
  kvs.foldl (fun acc kv => if kv.1 = k then some kv.2 else acc) none

/-- Python truthiness of a JSON value. -/
def pyTruthy : Json → Bool
  | Json.null => false
  | Json.bool b => b
  | Json.num n => n != 0
  | Json.str s => !s.isEmpty
  | Json.arr l => !l.isEmpty
  | Json.obj kvs => !kvs.isEmpty

/-- Python `str()` of a JSON value.  Containers render as bracket
placeholders: the exact container rendering is irrelevant to the source
(`str` is only compared against `"product"` and applied to product
names, which are strings or numbers in structured-data payloads). -/
def pyStr : Json → Str
  | Json.str s => s
  | Json.null => "None".toList
  | Json.bool true => "True".toList
  | Json.bool false => "False".toList
  | Json.num n => (toString n).toList
  | Json.arr _ => "[...]".toList
  | Json.obj _ => "\x7b...\x7d".toList

/-- Key and token constants of the structured-data stage. -/
def atTypeKey : Str := "@type".toList

def nameKey : Str := "name".toList

def graphKey : Str := "@graph".toList

def offersKey : Str := "offers".toList

def productTok : Str := "product".toList

/-- Result of scanning an object's bindings for the `"@graph"` key:
either the key is absent, or its (last) binding is not a list, or it is a
list and the graph loop produced `r`. -/
inductive GraphHit where
  | noKey
  | notList
  | hit (r : Option Str)

mutual

/-- The recursive helper `extract_name` of `extract_product_name`
(lines 345–360): a dict with `@type` equal (case-insensitively, via
`str(...).lower()`) to `"product"` and a truthy `name` yields that name
stripped; otherwise an `@graph` list is searched recursively for the
first truthy result; otherwise a dict-valued `offers` entry with a
truthy `name` yields that name stripped. -/
def extract_name (j : Json) : Option Str :=
  match j with
  | Json.obj kvs =>
    let objType := match jget kvs atTypeKey with
      | some v => if pyTruthy v then v else Json.str []
      | none => Json.str []
    if pyLower (pyStr objType) = productTok &&
        (match jget kvs nameKey with
         | some v => pyTruthy v
         | none => false) then
      some (pyStrip (pyStr ((jget kvs nameKey).getD Json.null)))
    else
      match graphFromKvs kvs with
      | GraphHit.hit (some n) => some n
      | _ =>
        match jget kvs offersKey with
        | some (Json.obj okvs) =>
          match jget okvs nameKey with
          | some v => if pyTruthy v then some (pyStrip (pyStr v)) else none
          | none => none
        | _ => none
  | _ => none

/-- Scan the bindings of an object for the last `"@graph"` binding
(later duplicate keys shadow earlier ones, as in a Python dict) and, when
its value is a list, run the graph loop over it. -/
def graphFromKvs : List (Str × Json) → GraphHit
  | [] => GraphHit.noKey
  | (k, v) :: rest =>
    match graphFromKvs rest with
    | GraphHit.noKey =>
      if k = graphKey then
        match v with
        | Json.arr nodes => GraphHit.hit (extract_name_list nodes)
        | _ => GraphHit.notList
      else GraphHit.noKey
    | r => r

/-- The `for node in obj["@graph"]` loop: the first truthy (non-empty)
recursive result wins. -/
def extract_name_list : List Json → Option Str
  | [] => none
  | x :: xs =>
    match extract_name x with
    | some n => if n.isEmpty then extract_name_list xs else some n
    | none => extract_name_list xs

end

/-! ## URLs -/

/-- A URL, modelled by its `urlparse` components (`scheme`, `netloc`,
`path`, `params`, `query`, `fragment`); `urlunparse` is the identity on
this representation and URL equality is component-wise. -/
structure Url where
  scheme : Str
  netloc : Str
  path : Str
  params : Str
  query : Str
  fragment : Str
deriving DecidableEq

/-- `urlunparse((parsed.scheme, parsed.netloc, parsed.path, '', '', ''))`:
the URL stripped of params, query string and fragment. -/
def stripQueryFragment (u : Url) : Url :=
  { u with params := [], query := [], fragment := [] }

/-- Everything after the last occurrence of `c` in `s`
(the whole string when `c` does not occur). -/
def afterLastChar (c : Char) (s : Str) : Str :=
  (s.reverse.takeWhile (fun d => d != c)).reverse

/-- `urlparse(url).hostname or ""`: the lowercased host part of the
netloc, without userinfo or port. -/
def hostOf (u : Url) : Str :=
  pyLower (takeBefore [':'] (afterLastChar '@' u.netloc))

/-! ## Fetched pages

`BeautifulSoup` itself is not embedded.  An `Html` value carries the raw
page text together with the observations the source code makes of the
parsed tree; those observations are inputs of the model, produced by the
(unmodelled) HTML parser. -/

/-- The CSS selectors of the markup-selector chain of
`extract_product_name` (lines 411–430), one constructor per selector. -/
inductive Sel where
  /-- `h1.page-title span.base` -/
  | h1PageTitleSpanBase
  /-- `h1.page-title` -/
  | h1PageTitle
  /-- `.page-title` -/
  | pageTitle
  /-- `h1.product-title` -/
  | h1ProductTitle
  /-- `h1.product-name` -/
  | h1ProductName
  /-- `.product-title` -/
  | productTitle
  /-- `.product-name` -/
  | productName
  /-- `.product-info h1` -/
  | productInfoH1
  /-- `.product-details h1` -/
  | productDetailsH1
  /-- `.product-header h1` -/
  | productHeaderH1
  /-- `[itemprop='name']` -/
  | itempropName
  /-- `[data-testid='product-title']` -/
  | testidProductTitle
  /-- `[data-testid='product-name']` -/
  | testidProductName
  /-- `[data-role='product-name']` -/
  | roleProductName
  /-- `meta[property='og:title']` -/
  | metaOgTitle
  /-- `meta[name='title']` -/
  | metaNameTitle
  /-- `h1` -/
  | h1
  /-- `title` -/
  | title
deriving DecidableEq

/-- The selector chain in source order. -/
def selectorChain : List Sel :=
  [Sel.h1PageTitleSpanBase, Sel.h1PageTitle, Sel.pageTitle,
   Sel.h1ProductTitle, Sel.h1ProductName, Sel.productTitle,
   Sel.productName, Sel.productInfoH1, Sel.productDetailsH1,
   Sel.productHeaderH1, Sel.itempropName, Sel.testidProductTitle,
   Sel.testidProductName, Sel.roleProductName, Sel.metaOgTitle,
   Sel.metaNameTitle, Sel.h1, Sel.title]

/-- Whether a selector is one of the two `meta` selectors (whose value is
read from the `content` attribute instead of the element text). -/
def isMetaSel : Sel → Bool
  | Sel.metaOgTitle => true
  | Sel.metaNameTitle => true
  | _ => false

/-- A fetched page: the raw text plus the parse results the source reads
from the parsed tree. -/
structure Html where
  /-- The raw page text (`resp.text`). -/
  raw : Str
  /-- Parse results of the text content of each
  `script` element with type `application/ld+json` in the parsed tree, in
  document order; `none` stands for content `json.loads` rejects. -/
  ldjson : List (Option Json)
  /-- The captured group of the `product\.sku` pattern inside a
  `window\.product` block when the (backslash-literal) regular
  expressions of lines 401–407 match the raw text; `none` otherwise. -/
  winProdSku : Option Str
  /-- The stripped `href` of a `link` element whose `rel` contains
  `canonical` (`_extract_canonical_url`); `none` when absent or empty. -/
  canonical : Option Url
  /-- For each selector of the chain: the text (`get_text(strip=True)`)
  of the first matching element — or, for the `meta` selectors, the raw
  `content` attribute value (empty when the attribute is missing) — after
  `script` and `style` elements have been removed from the tree;
  `none` when no element matches. -/
  selText : Sel → Option Str

/-! ## Page classifier -/

/-- `is_non_product_page` (lines 159–167).  Note that the first test
checks the mixed-case needle `'pageType'` against the lowercased HTML. -/
def is_non_product_page (html : Str) : Bool :=
  let lower := pyLower html
  if strContains lower ("pageType".toList) && strContains lower ("cart".toList) then
    true
  else if strContains lower ("<meta name=\"robots\" content=\"noindex,nofollow\"".toList) &&
      (strContains lower ("warenkorb".toList) || strContains lower ("cart".toList)) then
    true
  else if strContains lower ("<title>warenkorb".toList) ||
      strContains lower ("checkout/cart/".toList) then
    true
  else false

/-- `_extract_canonical_url` (lines 170–179): the canonical link of the
parsed page, carried by the `Html` model. -/
def _extract_canonical_url (h : Html) : Option Url := h.canonical

/-! ## Name extractor -/

/-- The bot-challenge indicators of `extract_product_name` (line 333). -/
def botWallIndicators : List Str :=
  ["cloudflare".toList, "captcha".toList,
   "attention required".toList, "access denied".toList]

/-- The generic-phrase denylist of the selector stage (line 452). -/
def skipPhrases : List Str :=
  ["404".toList, "not found".toList, "error".toList,
   "page not found".toList, "home".toList, "shop".toList,
   "store".toList, "catalog".toList, "products".toList]

/-- The structured-data stage (lines 340–372): for each remaining
`application/ld+json` script, parse it, run `extract_name`, and accept
the first candidate that passes the 3–200 length bound both before and
after the `cleanLd` cleaning. -/
def ldjsonStage : List (Option Json) → Option Str
  | [] => none
  | none :: rest => ldjsonStage rest
  | some j :: rest =>
    match extract_name j with
    | none => ldjsonStage rest
    | some candidate =>
      if !candidate.isEmpty && 3 < candidate.length && candidate.length < 200 then
        let cleaned := cleanLd candidate
        if !cleaned.isEmpty && 3 < cleaned.length && cleaned.length < 200 then
          some cleaned
        else ldjsonStage rest
      else ldjsonStage rest

/-- The embedded-analytics stage (lines 375–399).  Both `dataLayer`
regular expressions are written with `\\((` — which opens two groups —
but close only one (`\})\)`), so `re.findall` raises `re.error`
(unbalanced parenthesis) at pattern-compile time; the enclosing
`try/except Exception: pass` swallows it and the stage never produces a
candidate. -/
def dataLayerStage (_h : Html) : Option Str := none

/-- The `window.product` stage (lines 400–410): when the
(backslash-literal) patterns matched, the captured sku is stripped and
accepted under a 2–200 length bound. -/
def windowProductStage (h : Html) : Option Str :=
  match h.winProdSku with
  | none => none
  | some sku =>
    let skuVal := pyStrip sku
    if 2 < skuVal.length && skuVal.length < 200 then some skuVal else none

/-- The text a selector yields: element text, or the stripped `content`
attribute for the `meta` selectors (lines 433–441). -/
def selectorTextOf (h : Html) (sel : Sel) : Option Str :=
  if isMetaSel sel then (h.selText sel).map pyStrip else h.selText sel

/-- The markup-selector stage (lines 431–457): first selector whose text
passes the pre-clean length bound (greater than 3 and less than 300) and
whose `cleanSel`-cleaned text contains no denylisted phrase. -/
def selectorStage (h : Html) : List Sel → Option Str
  | [] => none
  | sel :: rest =>
    match selectorTextOf h sel with
    | none => selectorStage h rest
    | some t =>
      if !t.isEmpty && 3 < t.length && t.length < 300 then
        let cleaned := cleanSel t
        if skipPhrases.any (fun ph => strContains (pyLower cleaned) ph) then
          selectorStage h rest
        else some cleaned
      else selectorStage h rest

/-- `extract_product_name` (lines 331–458).  After the bot-wall
short-circuit, the source decomposes every `script` and `style` element
of the parsed tree (lines 337–338) and only afterwards iterates over
`find_all("script", ...)` (line 340), which therefore iterates over an
empty collection: the structured-data stage runs on no scripts. -/
def extract_product_name (h : Html) : Option Str :=
  let lowerHtml := pyLower h.raw
  if botWallIndicators.any (fun ind => strContains lowerHtml ind) then none
  else
    let scriptsAfterDecompose : List (Option Json) := []
    match ldjsonStage scriptsAfterDecompose with
    | some n => some n
    | none =>
      match dataLayerStage h with
      | some n => some n
      | none =>
        match windowProductStage h with
        | some n => some n
        | none => selectorStage h selectorChain

/-! ## Slug heuristic -/

/-- The locale/category slug tokens of `_derive_name_from_slug`
(line 469). -/
def slugPrefixes : List Str :=
  ["glamira-".toList, "bague-".toList, "ring-".toList, "anneau-".toList,
   "verlobungsring-".toList, "eheringe-".toList, "pierscionki-".toList,
   "prsten-".toList, "collier-".toList, "pendant-".toList,
   "necklace-".toList, "earring-".toList]

/-- Python `w.capitalize()`: first character uppercased, the rest
lowercased. -/
def pyCapitalize : Str → Str
  | [] => []
  | c :: cs => Char.toUpper c :: cs.map Char.toLower

/-- Python `w.isalpha()` (ASCII letters; URL slugs are ASCII). -/
def pyIsAlphaStr (w : Str) : Bool := !w.isEmpty && w.all Char.isAlpha

/-- `_derive_name_from_slug` (lines 461–482): take the last path
segment, cut at `.html`, drop one known slug token, split on runs of
hyphens/underscores, capitalize alphabetic words, rejoin with spaces,
and accept under a 2–200 length bound. -/
def _derive_name_from_slug (u : Url) : Option Str :=
  let path := u.path
  if path.isEmpty || !(strContains path (".html".toList)) then none
  else
    let slug := afterLastChar '/' path
    let slug := takeBefore (".html".toList) slug
    let slug := match slugPrefixes.find? (fun p => p.isPrefixOf slug) with
      | some p => slug.drop p.length
      | none => slug
    let words := (slug.splitOnP (fun c => c = '-' || c = '_')).filter
      (fun w => !w.isEmpty)
    if words.isEmpty then none
    else
      let name := joinWords
        (words.map (fun w => if pyIsAlphaStr w then pyCapitalize w else w))
      if 2 < name.length && name.length < 200 then some name else none

/-! ## HTTP fetch loop (`http_get`) -/

/-- `MAX_RETRIES` (line 33). -/
def MAX_RETRIES : Nat := 3

/-- Outcome of one HTTP client call: a response with a status code and a
body text, or a raised exception (timeout, connection error, ...). -/
inductive RResult where
  | ok (status : Nat) (body : Str)
  | exn
deriving DecidableEq

/-- The network environment of `http_get`: whether the cloudscraper
client was created at import time, and the outcome of each client call
site as a function of the attempt number — the primary cloudscraper call
used for glamira hosts, the primary `requests.get`, and the cloudscraper
fallback issued on 403/429/503. -/
structure Net where
  hasCf : Bool
  primaryCf : Nat → RResult
  primary : Nat → RResult
  fallbackCf : Nat → RResult

/-- One iteration of the retry loop of `http_get` (lines 264–324) at
attempt number `k`.  `some r` means the function returns `r`; `none`
means the iteration falls through to the next attempt. -/
def httpAttempt (net : Net) (u : Url) (k : Nat) : Option (Option Str) :=
  let glam := strContains (hostOf u) ("glamira.".toList)
  let respOpt : Option (Nat × Str) :=
    if net.hasCf && glam then
      match net.primaryCf k with
      | RResult.ok s b => some (s, b)
      | RResult.exn =>
        match net.primary k with
        | RResult.ok s b => some (s, b)
        | RResult.exn => none
    else
      match net.primary k with
      | RResult.ok s b => some (s, b)
      | RResult.exn => none
  match respOpt with
  | none => none
  | some (status, body) =>
    if status = 200 then
      -- the redirected-to-cart check (lines 286-291) logs and returns the
      -- body just as the fall-through does
      some (some body)
    else if status = 404 then some none
    else if status = 403 then
      if net.hasCf then
        match net.fallbackCf k with
        | RResult.ok s b => if s = 200 then some (some b) else some none
        | RResult.exn => some none
      else some none
    else if status = 429 || status = 503 then
      if net.hasCf then
        match net.fallbackCf k with
        | RResult.ok s b => if s = 200 then some (some b) else none
        | RResult.exn => none
      else none
    else none

/-- The `for attempt in range(1, MAX_RETRIES + 1)` loop. -/
def httpLoop (net : Net) (u : Url) : List Nat → Option Str
  | [] => none
  | k :: rest =>
    match httpAttempt net u k with
    | some r => r
    | none => httpLoop net u rest

/-- `http_get` (lines 262–328). -/
def http_get (net : Net) (u : Url) : Option Str :=
  httpLoop net u (List.range' 1 MAX_RETRIES)

/-! ## Records and the single-URL processor -/

/-- An input record (`UrlRecord` dataclass, lines 97–101). -/
structure UrlRecord where
  product_id : Str
  url : Url
  source_collection : Str
deriving DecidableEq

/-- An outcome row as produced by `process_single_url` (line 544). -/
structure OutcomeRecord where
  product_id : Str
  url : Url
  source_collection : Str
  product_name : Option Str
  status : Str
  fetched_at : Nat
deriving DecidableEq

/-- The status strings used by `process_single_url`. -/
def stSuccess : Str := "success".toList

def stSlugHeuristic : Str := "slug_heuristic".toList

def stNonProductPage : Str := "non_product_page".toList

def stNoNameFound : Str := "no_name_found".toList

def stNoHtml : Str := "no_html".toList

def stFailed : Str := "failed".toList

/-- Python truthiness of the local `product_name` variable. -/
def truthyName : Option Str → Bool
  | some s => !s.isEmpty
  | none => false

/-- The outcome dict literal shared by every return of
`process_single_url` (lines 519 and 544):
`{"product_id": ..., "url": ..., "source_collection": ...,
"product_name": ..., "status": ..., "fetched_at": ...}`. -/
def mkOutcome (r : UrlRecord) (pn : Option Str) (st : Str) (now : Nat) :
    OutcomeRecord :=
  { product_id := r.product_id, url := r.url,
    source_collection := r.source_collection,
    product_name := pn, status := st, fetched_at := now }

/-- The canonical-URL recovery block of `process_single_url`
(lines 491–506): when the fetched page is a non-product page, re-fetch
once at the canonical URL (or, absent one, the original URL stripped of
query and fragment) and, when the recovered page is not itself a
non-product page, adopt it together with its URL. -/
def recoverNonProduct (fetch : Url → Option Html) (html0 : Html)
    (record : UrlRecord) : Html × UrlRecord :=
  if is_non_product_page html0.raw then
    let newUrl : Url :=
      match _extract_canonical_url html0 with
      | some u => u
      | none => stripQueryFragment record.url
    if newUrl ≠ record.url then
      match fetch newUrl with
      | some rh =>
        if !is_non_product_page rh.raw then
          (rh, { record with url := newUrl })
        else (html0, record)
      | none => (html0, record)
    else (html0, record)
  else (html0, record)

/-- `process_single_url` (lines 485–544), with the effect of
`http_get` plus HTML parsing supplied as the oracle `fetch` and
`int(time.time())` supplied as `now`.  The debug-HTML dumps (a capped
logging side effect) are not part of the returned record and are not
modelled. -/
def process_single_url (fetch : Url → Option Html) (now : Nat)
    (record : UrlRecord) : OutcomeRecord :=
  match fetch record.url with
  | none => mkOutcome record none stNoHtml now
  | some html0 =>
    let hr : Html × UrlRecord := recoverNonProduct fetch html0 record
    let html := hr.1
    let rec' := hr.2
    if is_non_product_page html.raw then
      mkOutcome rec' none stNonProductPage now
    else
      let pn := extract_product_name html
      if truthyName pn then mkOutcome rec' pn stSuccess now
      else
        match _derive_name_from_slug rec'.url with
        | some sn => mkOutcome rec' (some sn) stSlugHeuristic now
        | none =>
          -- the local `product_name` still holds the falsy extractor
          -- result here: `None`, or an empty cleaned string
          mkOutcome rec' pn stNoNameFound now

/-! ## Deduplicator -/

/-- `bool(row.get("product_name"))`. -/
def recHasName (r : OutcomeRecord) : Bool := truthyName r.product_name

/-- Lookup in the insertion-ordered association list modelling the
`grouped` dict. -/
def alookup (g : List (Str × OutcomeRecord)) (k : Str) : Option OutcomeRecord :=
  match g with
  | [] => none
  | (k', v) :: rest => if k' = k then some v else alookup rest k

/-- In-place update of an existing key of the `grouped` dict
(dict assignment keeps the key's insertion position). -/
def aset (g : List (Str × OutcomeRecord)) (k : Str) (v : OutcomeRecord) :
    List (Str × OutcomeRecord) :=
  match g with
  | [] => []
  | (k', v') :: rest =>
    if k' = k then (k', v) :: rest else (k', v') :: aset rest k v

/-- The body of the `for row in candidates` loop of
`deduplicate_by_product_id` (lines 594–609). -/
def dedupStep (g : List (Str × OutcomeRecord)) (row : OutcomeRecord) :
    List (Str × OutcomeRecord) :=
  let pid := row.product_id
  if pid.isEmpty then g
  else
    match alookup g pid with
    | none => g ++ [(pid, row)]
    | some existing =>
      let hasName := recHasName row
      let existingHasName := recHasName existing
      if hasName && !existingHasName then aset g pid row
      else if hasName && existingHasName &&
          decide (row.status = stSuccess) &&
          decide (¬ existing.status = stSuccess) then
        aset g pid row
      else g

/-- `deduplicate_by_product_id` (lines 590–615): fold the rows into the
insertion-ordered `grouped` dict and return `list(grouped.values())`. -/
def deduplicate_by_product_id (candidates : List OutcomeRecord) :
    List OutcomeRecord :=
  (candidates.foldl dedupStep []).map Prod.snd

/-! ## Derived notions used to state the properties -/

/-- The merge rule of the deduplicator between a kept record and a newly
seen record for the same identifier: a record carrying a name beats one
without; among two named records a `success` one beats any other
status; otherwise the kept (first-seen) record survives. -/
def merge2 (existing row : OutcomeRecord) : OutcomeRecord :=
  if recHasName row && !recHasName existing then row
  else if recHasName row && recHasName existing &&
      decide (row.status = stSuccess) &&
      decide (¬ existing.status = stSuccess) then row
  else existing

/-- The merge priority class of a record: named `success` records beat
named records of other statuses, which beat nameless records. -/
def recPriority (r : OutcomeRecord) : Nat :=
  if recHasName r then (if r.status = stSuccess then 2 else 1) else 0

/-- The record the merge rule selects for identifier `p` from a list of
outcome rows: the in-order fold of the rows carrying `p`. -/
def chooseFor (p : Str) (l : List OutcomeRecord) : Option OutcomeRecord :=
  match l.filter (fun r => decide (r.product_id = p)) with
  | [] => none
  | x :: xs => some (xs.foldl merge2 x)

/-- The distinct nonempty product ids of a row list in first-seen order,
relative to ids already seen. -/
def newKeys (seen : List Str) : List OutcomeRecord → List Str
  | [] => []
  | r :: rs =>
    if r.product_id = [] ∨ r.product_id ∈ seen then newKeys seen rs
    else r.product_id :: newKeys (r.product_id :: seen) rs

/-- Well-formedness of the `grouped` association list: distinct keys,
and each stored record carries its key as (nonempty) product id. -/
def GoodAcc (g : List (Str × OutcomeRecord)) : Prop :=
  (g.map Prod.fst).Nodup ∧ ∀ kv ∈ g, kv.2.product_id = kv.1 ∧ ¬ kv.1 = []

/-- No whitespace character immediately followed by another whitespace
character. -/
def PairsOK : Str → Prop
  | [] => True
  | [_] => True
  | c :: d :: t =>
    ¬ (pyIsSpace c = true ∧ pyIsSpace d = true) ∧ PairsOK (d :: t)

/-- A string in the image of `collapse`: its only whitespace character
is the plain space, it neither starts nor ends with whitespace, and no
two whitespace characters are adjacent. -/
def Tidy (s : Str) : Prop :=
  (∀ c ∈ s, pyIsSpace c = true → c = ' ') ∧
  (∀ c, s.head? = some c → pyIsSpace c = false) ∧
  (∀ c, s.getLast? = some c → pyIsSpace c = false) ∧
  PairsOK s

/-! ## Concrete fixtures for the witnesses and counterexamples -/

/-- A structured-data block declaring a Product with a conforming name. -/
def c1Json : Json :=
  Json.obj [(atTypeKey, Json.str ("Product".toList)),
            (nameKey, Json.str ("Test Product Name".toList))]

/-- A page whose only name source is the structured-data block. -/
def c1Html : Html :=
  { raw := "<html><head></head><body></body></html>".toList
    ldjson := [some c1Json]
    winProdSku := none
    canonical := none
    selText := fun _ => none }

/-- A product URL whose slug yields the three-letter name `Abc`. -/
def c2Url : Url :=
  { scheme := "https".toList, netloc := "shop.example.de".toList
    path := "/abc.html".toList, params := [], query := [], fragment := [] }

/-- A benign page with no extractable name. -/
def c2Html : Html :=
  { raw := "<html><body><p>hello</p></body></html>".toList
    ldjson := [], winProdSku := none, canonical := none
    selText := fun _ => none }

def c2Record : UrlRecord :=
  { product_id := "42".toList, url := c2Url, source_collection := "c".toList }

def c2Fetch : Url → Option Html := fun _ => some c2Html

/-- A benign page whose `title` yields a clean name. -/
def c2TitleHtml : Html :=
  { raw := "<html><body><p>hello</p></body></html>".toList
    ldjson := [], winProdSku := none, canonical := none
    selText := fun s => if s = Sel.title then some ("Nice Ring Abc".toList) else none }

def c2TitleFetch : Url → Option Html := fun _ => some c2TitleHtml

/-- A network whose first attempt answers 403, whose hardened fallback
fails, and whose second attempt would answer 200. -/
def c3Net : Net :=
  { hasCf := true
    primaryCf := fun _ => RResult.exn
    primary := fun k =>
      if k = 1 then RResult.ok 403 ("forbidden".toList)
      else RResult.ok 200 ("good page".toList)
    fallbackCf := fun _ => RResult.exn }

/-- Like `c3Net` with a 429 first answer. -/
def c3Net429 : Net :=
  { hasCf := true
    primaryCf := fun _ => RResult.exn
    primary := fun k =>
      if k = 1 then RResult.ok 429 ("limited".toList)
      else RResult.ok 200 ("good page".toList)
    fallbackCf := fun _ => RResult.exn }

/-- Like `c3Net` with a 503 first answer. -/
def c3Net503 : Net :=
  { hasCf := true
    primaryCf := fun _ => RResult.exn
    primary := fun k =>
      if k = 1 then RResult.ok 503 ("unavailable".toList)
      else RResult.ok 200 ("good page".toList)
    fallbackCf := fun _ => RResult.exn }

def c3Url : Url :=
  { scheme := "https".toList, netloc := "shop.example.com".toList
    path := "/p.html".toList, params := [], query := [], fragment := [] }

/-- A page containing the literal text `pageType` and `cart` and nothing
else that the classifier tests for. -/
def c9Input : Str := "pageType cart".toList

/-- A bot-challenge page that also carries a plausible `h1` name. -/
def c6Html : Html :=
  { raw := "<html>Attention Required! | Cloudflare</html>".toList
    ldjson := [], winProdSku := none, canonical := none
    selText := fun s => if s = Sel.h1 then some ("Nice Product Name".toList) else none }

/-- The original URL of the recovery scenario. -/
def c7OrigUrl : Url :=
  { scheme := "https".toList, netloc := "shop.example.de".toList
    path := "/checkout/cart/".toList, params := []
    query := "from=x".toList, fragment := [] }

/-- The canonical URL the non-product page declares. -/
def c7CanonUrl : Url :=
  { scheme := "https".toList, netloc := "shop.example.de".toList
    path := "/nice-ring.html".toList, params := [], query := [], fragment := [] }

/-- The non-product (cart) page carrying the canonical link. -/
def c7CartHtml : Html :=
  { raw := "<html><title>Warenkorb</title></html>".toList
    ldjson := [], winProdSku := none
    canonical := some c7CanonUrl
    selText := fun _ => none }

/-- The genuine product page behind the canonical URL. -/
def c7ProductHtml : Html :=
  { raw := "<html><body>a page</body></html>".toList
    ldjson := [], winProdSku := none, canonical := none
    selText := fun s => if s = Sel.title then some ("Fine Ring Xyz".toList) else none }

def c7Fetch : Url → Option Html := fun u =>
  if u = c7OrigUrl then some c7CartHtml
  else if u = c7CanonUrl then some c7ProductHtml
  else none

def c7Record : UrlRecord :=
  { product_id := "9".toList, url := c7OrigUrl, source_collection := "c".toList }

/-- Two nameless records with the same id and different URLs: neither
beats the other, so the first-seen one is kept. -/
def c4RecA : OutcomeRecord :=
  { product_id := "1".toList, url := c2Url, source_collection := "a".toList
    product_name := none, status := stNoNameFound, fetched_at := 1 }

def c4RecB : OutcomeRecord :=
  { product_id := "1".toList, url := c3Url, source_collection := "b".toList
    product_name := none, status := stNoHtml, fetched_at := 2 }

/-- The nameless `no_name_found` record of the merge scenario. -/
def c5RecNoName : OutcomeRecord :=
  { product_id := "7".toList, url := c2Url, source_collection := "a".toList
    product_name := none, status := stNoNameFound, fetched_at := 1 }

/-- The named `success` record of the merge scenario. -/
def c5RecSuccess : OutcomeRecord :=
  { product_id := "7".toList, url := c3Url, source_collection := "b".toList
    product_name := some ("Foo".toList), status := stSuccess, fetched_at := 2 }

/-- A candidate on which the cleaning rule is stable. -/
def c8Nice : Str := "Nice Ring".toList

/-- A candidate that strips twice: `Buy Buy Foo` → `Buy Foo` → `Foo`. -/
def c8BuyBuy : Str := "Buy Buy Foo".toList

/-- A candidate whose brand-token stripping strips twice:
`My store shop` → `My store` → `My`. -/
def c8StoreShop : Str := "My store shop".toList

/-! # Theorems -/

/-- **C9.** The first test of `is_non_product_page` compares the
mixed-case needle `'pageType'` against the lowercased HTML, so HTML
containing the literal texts `pageType` and `cart` (and none of the
other cart markers) is *not* flagged: the code returns `false` where the
claim requires `true`. -/
theorem c9_pagetype_marker_never_fires :
    strContains (pyLower c9Input) ("pagetype".toList) = true ∧
    strContains (pyLower c9Input) ("cart".toList) = true ∧
    is_non_product_page c9Input = false := by decide

/-- **C1.** The structured-data block of `c1Html` declares a Product
whose name passes the 3–200 bound, yet `extract_product_name` returns
`none`: every `script` element is decomposed (lines 337–338) before the
`find_all` of the structured-data stage (line 340) runs, so the declared
name is never read. -/
theorem c1_structured_name_never_returned :
    extract_name c1Json = some ("Test Product Name".toList) ∧
    (3 < ("Test Product Name".toList).length ∧
      ("Test Product Name".toList).length < 200) ∧
    extract_product_name c1Html = none := by decide

/-- **C8 counterexample.** The cleaning rule is not idempotent: the
marketing-prefix stripping of the selector-stage cleaning and the
brand-token stripping of the structured-data-stage cleaning can both
strip again on a second application. -/
theorem c8_cleaning_not_idempotent :
    ¬ (cleanSel (cleanSel c8BuyBuy) = cleanSel c8BuyBuy) ∧
    ¬ (cleanLd (cleanLd c8StoreShop) = cleanLd c8StoreShop) := by decide

/-- **C6.** Whenever the lowercased HTML contains a bot-challenge
indicator, `extract_product_name` returns `none`, whatever the rest of
the page holds. -/
theorem c6_bot_wall_short_circuit (h : Html)
    (hb : botWallIndicators.any
      (fun ind => strContains (pyLower h.raw) ind) = true) :
    extract_product_name h = none := by
  unfold extract_product_name
  simp [hb]

/-- **C6 witness.** A challenge page whose `h1` would otherwise yield an
accepted candidate. -/
theorem c6_bot_wall_short_circuit_witness :
    (botWallIndicators.any
      (fun ind => strContains (pyLower c6Html.raw) ind) = true) ∧
    selectorStage c6Html selectorChain = some ("Nice Product Name".toList) ∧
    extract_product_name c6Html = none :=
  ⟨by decide, by decide, c6_bot_wall_short_circuit c6Html (by decide)⟩

theorem mkOutcome_status (r : UrlRecord) (pn : Option Str) (st : Str)
    (now : Nat) : (mkOutcome r pn st now).status = st := rfl

theorem mkOutcome_name (r : UrlRecord) (pn : Option Str) (st : Str)
    (now : Nat) : (mkOutcome r pn st now).product_name = pn := rfl

theorem mkOutcome_url (r : UrlRecord) (pn : Option Str) (st : Str)
    (now : Nat) : (mkOutcome r pn st now).url = r.url := rfl

/-- The slug heuristic only accepts names of length strictly between 2
and 200. -/
theorem derive_name_bounds (u : Url) (n : Str)
    (h : _derive_name_from_slug u = some n) :
    2 < n.length ∧ n.length < 200 := by
  simp only [_derive_name_from_slug] at h
  split at h
  · exact absurd h (by simp)
  · split at h
    · exact absurd h (by simp)
    · split at h
      · cases h
        simp_all
      · exact absurd h (by simp)

/-- **C10.** Every record `process_single_url` returns carries one of
the five reachable statuses; the declared `failed` value is never the
status of a returned record. -/
theorem c10_status_enum (fetch : Url → Option Html) (now : Nat)
    (record : UrlRecord) :
    (process_single_url fetch now record).status ∈
      [stSuccess, stSlugHeuristic, stNonProductPage, stNoNameFound, stNoHtml] := by
  unfold process_single_url
  split
  · rw [mkOutcome_status]; decide
  · dsimp only
    split
    · rw [mkOutcome_status]; decide
    · split
      · rw [mkOutcome_status]; decide
      · split <;> rw [mkOutcome_status] <;> decide

/-- **C2 (amended).** A `success` record carries a present, non-empty
name; a `slug_heuristic` record carries a name of length strictly
between 2 and 200; `non_product_page` and `no_html` records carry no
name; a `no_name_found` record carries either no name or the empty
string left behind by the extractor. -/
theorem c2_name_presence_by_status (fetch : Url → Option Html) (now : Nat)
    (record : UrlRecord) :
    ((process_single_url fetch now record).status = stSuccess →
      ∃ s, (process_single_url fetch now record).product_name = some s ∧
        s ≠ []) ∧
    ((process_single_url fetch now record).status = stSlugHeuristic →
      ∃ s, (process_single_url fetch now record).product_name = some s ∧
        2 < s.length ∧ s.length < 200) ∧
    ((process_single_url fetch now record).status = stNonProductPage ∨
        (process_single_url fetch now record).status = stNoHtml →
      (process_single_url fetch now record).product_name = none) ∧
    ((process_single_url fetch now record).status = stNoNameFound →
      (process_single_url fetch now record).product_name = none ∨
        (process_single_url fetch now record).product_name = some []) := by
  unfold process_single_url
  split
  · refine ⟨?_, ?_, ?_, ?_⟩ <;> intro h <;>
      rw [mkOutcome_status] at h
    · exact absurd h (by decide)
    · exact absurd h (by decide)
    · exact mkOutcome_name ..
    · exact absurd h (by decide)
  · dsimp only
    split
    · refine ⟨?_, ?_, ?_, ?_⟩ <;> intro h <;>
        rw [mkOutcome_status] at h
      · exact absurd h (by decide)
      · exact absurd h (by decide)
      · exact mkOutcome_name ..
      · exact absurd h (by decide)
    · split
      · rename_i htr
        refine ⟨?_, ?_, ?_, ?_⟩ <;> intro h <;>
          rw [mkOutcome_status] at h
        · rw [mkOutcome_name]
          revert htr
          unfold truthyName
          split
          · rename_i s heq
            intro hs
            exact ⟨s, heq, by simpa using hs⟩
          · intro hs
            exact absurd hs (by simp)
        · exact absurd h (by decide)
        · rcases h with h | h <;> exact absurd h (by decide)
        · exact absurd h (by decide)
      · rename_i htr
        split
        · rename_i sn hsn
          refine ⟨?_, ?_, ?_, ?_⟩ <;> intro h <;>
            rw [mkOutcome_status] at h
          · exact absurd h (by decide)
          · rw [mkOutcome_name]
            exact ⟨sn, rfl, derive_name_bounds _ _ hsn⟩
          · rcases h with h | h <;> exact absurd h (by decide)
          · exact absurd h (by decide)
        · refine ⟨?_, ?_, ?_, ?_⟩ <;> intro h <;>
            rw [mkOutcome_status] at h
          · exact absurd h (by decide)
          · exact absurd h (by decide)
          · rcases h with h | h <;> exact absurd h (by decide)
          · rw [mkOutcome_name]
            revert htr
            unfold truthyName
            split
            · rename_i s heq
              intro hs
              right
              simp at hs
              rw [heq, hs]
            · intro _
              exact Or.inl (by assumption)

/-- **C2 counterexample.** A fetched page with no extractable name over
the slug `abc.html` yields a `slug_heuristic` record whose name `Abc`
has length 3 — not strictly between 3 and 200 as the claim requires. -/
theorem c2_slug_length_counterexample :
    (process_single_url c2Fetch 0 c2Record).status = stSlugHeuristic ∧
    (process_single_url c2Fetch 0 c2Record).product_name =
      some ("Abc".toList) ∧
    ¬ 3 < ("Abc".toList).length := by decide

/-- **C2 witness.** A concrete success outcome instantiating the
amended invariant. -/
theorem c2_name_presence_by_status_witness :
    (process_single_url c2TitleFetch 0 c2Record).status = stSuccess ∧
    ∃ s, (process_single_url c2TitleFetch 0 c2Record).product_name =
      some s ∧ s ≠ [] :=
  ⟨by decide, (c2_name_presence_by_status c2TitleFetch 0 c2Record).1 (by decide)⟩

/-- **C3 counterexample.** A first attempt answered 403 with a failing
hardened fallback returns absent immediately (line 305), even though a
second attempt would have answered 200: the 403 case does not fall
through to the retry loop. -/
theorem c3_403_returns_absent_despite_retry :
    c3Net.primary 1 = RResult.ok 403 ("forbidden".toList) ∧
    c3Net.primary 2 = RResult.ok 200 ("good page".toList) ∧
    http_get c3Net c3Url = none := by
  refine ⟨rfl, rfl, ?_⟩
  decide

/-- **C3 (amended).** On 429 and 503 the fetch attempts one hardened
fallback and otherwise falls through to the retry loop, but on 403 a
failed fallback returns absent immediately without consuming the
remaining attempts. -/
theorem c3_fallback_behavior :
    (∀ (net : Net) (u : Url) (b : Str),
      net.hasCf = true →
      strContains (hostOf u) ("glamira.".toList) = false →
      net.primary 1 = RResult.ok 403 b →
      (∀ s bb, net.fallbackCf 1 = RResult.ok s bb → ¬ s = 200) →
      http_get net u = none) ∧
    (∀ (net : Net) (u : Url) (st : Nat) (b b2 : Str),
      (st = 429 ∨ st = 503) →
      net.hasCf = true →
      strContains (hostOf u) ("glamira.".toList) = false →
      net.primary 1 = RResult.ok st b →
      (∀ s bb, net.fallbackCf 1 = RResult.ok s bb → ¬ s = 200) →
      net.primary 2 = RResult.ok 200 b2 →
      http_get net u = some b2) := by
  constructor
  · intro net u b hcf hglam hp1 hfb
    have ha1 : httpAttempt net u 1 = some none := by
      unfold httpAttempt
      rw [hcf, hglam, hp1]
      simp only [Bool.true_and, Bool.and_false]
      cases hfb1 : net.fallbackCf 1 with
      | ok s bb =>
        have := hfb s bb hfb1
        simp [this]
      | exn => simp
    unfold http_get MAX_RETRIES
    show httpLoop net u [1, 2, 3] = none
    simp [httpLoop, ha1]
  · intro net u st b b2 hst hcf hglam hp1 hfb hp2
    have ha1 : httpAttempt net u 1 = none := by
      unfold httpAttempt
      rw [hcf, hglam, hp1]
      simp only [Bool.true_and, Bool.and_false]
      rcases hst with h | h <;> subst h
      · cases hfb1 : net.fallbackCf 1 with
        | ok s bb =>
          have := hfb s bb hfb1
          simp [this]
        | exn => simp
      · cases hfb1 : net.fallbackCf 1 with
        | ok s bb =>
          have := hfb s bb hfb1
          simp [this]
        | exn => simp
    have ha2 : httpAttempt net u 2 = some (some b2) := by
      unfold httpAttempt
      rw [hcf, hglam, hp2]
      simp
    unfold http_get MAX_RETRIES
    show httpLoop net u [1, 2, 3] = some b2
    simp [httpLoop, ha1, ha2]

/-- **C3 witness.** Concrete networks instantiating both halves of the
amended statement (403 → absent; 429 and 503 → retried to the 200 of
the second attempt). -/
theorem c3_fallback_behavior_witness :
    http_get c3Net c3Url = none ∧
    http_get c3Net429 c3Url = some ("good page".toList) ∧
    http_get c3Net503 c3Url = some ("good page".toList) :=
  ⟨c3_fallback_behavior.1 c3Net c3Url ("forbidden".toList) rfl (by decide)
      (by decide) (by intro s bb h; simp [c3Net] at h),
    c3_fallback_behavior.2 c3Net429 c3Url 429 ("limited".toList)
      ("good page".toList) (Or.inl rfl) rfl (by decide) (by decide)
      (by intro s bb h; simp [c3Net429] at h) (by decide),
    c3_fallback_behavior.2 c3Net503 c3Url 503 ("unavailable".toList)
      ("good page".toList) (Or.inr rfl) rfl (by decide) (by decide)
      (by intro s bb h; simp [c3Net503] at h) (by decide)⟩

/-- **C7.** When the original fetch yields a non-product page whose
canonical link differs from the original URL and the canonical URL
fetches to a genuine product page from which a name is obtained
(by the extractor or the slug fallback), the outcome record carries the
recovered canonical URL and a `success` or `slug_heuristic` status. -/
theorem c7_recovery_records_recovered_url
    (fetch : Url → Option Html) (now : Nat) (record : UrlRecord)
    (h0 h1 : Html) (canon : Url)
    (hf : fetch record.url = some h0)
    (hnp : is_non_product_page h0.raw = true)
    (hc : h0.canonical = some canon)
    (hne : canon ≠ record.url)
    (hf2 : fetch canon = some h1)
    (hok : is_non_product_page h1.raw = false)
    (hname : truthyName (extract_product_name h1) = true ∨
      ¬ _derive_name_from_slug canon = none) :
    (process_single_url fetch now record).url = canon ∧
    ((process_single_url fetch now record).status = stSuccess ∨
      (process_single_url fetch now record).status = stSlugHeuristic) := by
  have hrec : recoverNonProduct fetch h0 record =
      (h1, { record with url := canon }) := by
    unfold recoverNonProduct
    rw [hnp]
    simp only [_extract_canonical_url, hc, if_pos hne, hf2, hok]
    simp
  unfold process_single_url
  rw [hf]
  dsimp only
  rw [hrec]
  dsimp only
  rw [hok]
  simp only [Bool.false_eq_true, if_false]
  cases htr : truthyName (extract_product_name h1) with
  | true =>
    simp only [if_pos rfl, if_true]
    exact ⟨mkOutcome_url .., Or.inl (mkOutcome_status ..)⟩
  | false =>
    simp only [Bool.false_eq_true, if_false]
    rcases hname with hname | hname
    · rw [htr] at hname; exact absurd hname (by simp)
    · cases hd : _derive_name_from_slug canon with
      | none => exact absurd hd hname
      | some sn =>
        simp only [hd]
        exact ⟨mkOutcome_url .., Or.inr (mkOutcome_status ..)⟩

/-- **C7 witness.** A concrete cart page with a canonical link to a
product page whose title yields a name. -/
theorem c7_recovery_records_recovered_url_witness :
    (process_single_url c7Fetch 0 c7Record).url = c7CanonUrl ∧
    ((process_single_url c7Fetch 0 c7Record).status = stSuccess ∨
      (process_single_url c7Fetch 0 c7Record).status = stSlugHeuristic) :=
  c7_recovery_records_recovered_url c7Fetch 0 c7Record c7CartHtml
    c7ProductHtml c7CanonUrl rfl (by decide) rfl (by decide)
    rfl (by decide) (Or.inl (by decide))

/-- The merge rule always returns one of its two arguments. -/
theorem merge2_cases (a b : OutcomeRecord) :
    merge2 a b = a ∨ merge2 a b = b := by
  unfold merge2
  split
  · exact Or.inr rfl
  · split
    · exact Or.inr rfl
    · exact Or.inl rfl

/-- The merge rule replaces exactly when the new record has a strictly
higher priority class, so the merged record's class is the maximum. -/
theorem recPriority_merge2 (a b : OutcomeRecord) :
    recPriority (merge2 a b) = max (recPriority a) (recPriority b) := by
  unfold merge2 recPriority
  by_cases hb : recHasName b <;> by_cases ha : recHasName a <;>
    by_cases hsb : b.status = stSuccess <;>
    by_cases hsa : a.status = stSuccess <;>
    simp [hb, ha, hsb, hsa, Nat.max_def]

/-- Folding the merge rule computes the running maximum priority. -/
theorem recPriority_foldl_merge2 (l : List OutcomeRecord) :
    ∀ a, recPriority (l.foldl merge2 a) =
      l.foldl (fun m r => max m (recPriority r)) (recPriority a) := by
  induction l with
  | nil => intro a; rfl
  | cons b rest ih =>
    intro a
    simp only [List.foldl_cons]
    rw [ih, recPriority_merge2]

/-- One step of the deduplicator over a single-key dict is the merge
rule. -/
theorem dedupStep_single (p : Str) (a row : OutcomeRecord)
    (hp : ¬ p = []) (hrow : row.product_id = p) :
    dedupStep [(p, a)] row = [(p, merge2 a row)] := by
  have hlook : alookup [(p, a)] p = some a := by simp [alookup]
  have haset : aset [(p, a)] p row = [(p, row)] := by simp [aset]
  unfold dedupStep merge2
  rw [hrow]
  simp only [List.isEmpty_iff, hp, if_false, hlook]
  split
  · rw [haset]
  · split
    · rw [haset]
    · rfl

/-- Folding the deduplicator over rows of one identifier keeps a
single-key dict holding the in-order merge. -/
theorem foldl_dedupStep_single (p : Str) (hp : ¬ p = []) :
    ∀ (l : List OutcomeRecord) (a : OutcomeRecord),
      (∀ r ∈ l, r.product_id = p) →
      l.foldl dedupStep [(p, a)] = [(p, l.foldl merge2 a)] := by
  intro l
  induction l with
  | nil => intro a _; rfl
  | cons b rest ih =>
    intro a hl
    simp only [List.foldl_cons]
    rw [dedupStep_single p a b hp (hl b (List.mem_cons_self b rest))]
    exact ih (merge2 a b) (fun r hr => hl r (List.mem_cons_of_mem b hr))

/-- The deduplicator on a single-identifier list yields the single
in-order merge of the list. -/
theorem dedup_single_pid (p : Str) (hp : ¬ p = [])
    (l : List OutcomeRecord) (hl : ∀ r ∈ l, r.product_id = p) :
    deduplicate_by_product_id l =
      match l with
      | [] => []
      | a :: rest => [rest.foldl merge2 a] := by
  cases l with
  | nil => rfl
  | cons a rest =>
    unfold deduplicate_by_product_id
    have h0 : dedupStep [] a = [(p, a)] := by
      unfold dedupStep alookup
      rw [hl a (List.mem_cons_self a rest)]
      simp [List.isEmpty_iff, hp]
    simp only [List.foldl_cons, h0]
    rw [foldl_dedupStep_single p hp rest a
      (fun r hr => hl r (List.mem_cons_of_mem a hr))]
    rfl

/-- **C4 (amended).** For a fixed multiset of records sharing one
(nonempty) identifier, every permutation of the input yields a merged
record of the same priority class (same name-presence, and same
distinction between a named `success` record and any other named
record); the specific record among equal-priority candidates is the
first-seen one and may differ between permutations. -/
theorem c4_priority_class_perm_invariant (l l' : List OutcomeRecord)
    (p : Str) (hp : ¬ p = []) (hl : ∀ r ∈ l, r.product_id = p)
    (hperm : l.Perm l') :
    (deduplicate_by_product_id l).map recPriority =
      (deduplicate_by_product_id l').map recPriority := by
  have hl' : ∀ r ∈ l', r.product_id = p := fun r hr =>
    hl r (hperm.mem_iff.mpr hr)
  have key : ∀ (m : List OutcomeRecord), (∀ r ∈ m, r.product_id = p) →
      (deduplicate_by_product_id m).map recPriority =
        match m with
        | [] => ([] : List Nat)
        | a :: rest =>
          [m.foldl (fun acc r => max acc (recPriority r)) 0] := by
    intro m hm
    rw [dedup_single_pid p hp m hm]
    cases m with
    | nil => rfl
    | cons a rest =>
      simp only [List.map_cons, List.map_nil, List.foldl_cons,
        Nat.zero_max]
      rw [recPriority_foldl_merge2]
  rw [key l hl, key l' hl']
  cases l with
  | nil =>
    have : l' = [] := hperm.symm.eq_nil
    rw [this]
  | cons a rest =>
    cases l' with
    | nil => exact absurd hperm.eq_nil (by simp)
    | cons a' rest' =>
      have := hperm.foldl_eq'
        (f := fun acc r => max acc (recPriority r))
        (fun x _ y _ z => by
          simp only []
          exact sup_right_comm z (recPriority x) (recPriority y)) 0
      rw [this]

/-- **C4 counterexample.** Two nameless records with one identifier:
neither beats the other, so each order keeps its own first record and
the two permutations merge to different records. -/
theorem c4_order_dependent_counterexample :
    [c4RecA, c4RecB].Perm [c4RecB, c4RecA] ∧
    ¬ deduplicate_by_product_id [c4RecA, c4RecB] =
        deduplicate_by_product_id [c4RecB, c4RecA] := by
  constructor
  · exact List.Perm.swap c4RecB c4RecA []
  · decide

/-- **C4 witness.** The amended statement at the concrete two-record
permutation. -/
theorem c4_priority_class_perm_invariant_witness :
    (deduplicate_by_product_id [c4RecA, c4RecB]).map recPriority =
      (deduplicate_by_product_id [c4RecB, c4RecA]).map recPriority :=
  c4_priority_class_perm_invariant [c4RecA, c4RecB] [c4RecB, c4RecA]
    ("1".toList) (by decide) (by decide)
    (List.Perm.swap c4RecB c4RecA [])

theorem alookup_append (g : List (Str × OutcomeRecord)) (k : Str)
    (v : OutcomeRecord) (p : Str) :
    alookup (g ++ [(k, v)]) p =
      match alookup g p with
      | some x => some x
      | none => if k = p then some v else none := by
  induction g with
  | nil => rfl
  | cons kv rest ih =>
    obtain ⟨k', v'⟩ := kv
    by_cases h : k' = p <;> simp [alookup, h, ih]

theorem aset_map_fst (g : List (Str × OutcomeRecord)) (k : Str)
    (v : OutcomeRecord) : (aset g k v).map Prod.fst = g.map Prod.fst := by
  induction g with
  | nil => rfl
  | cons kv rest ih =>
    obtain ⟨k', v'⟩ := kv
    by_cases h : k' = k <;> simp [aset, h, ih]

theorem alookup_aset (g : List (Str × OutcomeRecord)) (k : Str)
    (v : OutcomeRecord) (p : Str) :
    alookup (aset g k v) p =
      if p = k then
        (match alookup g k with
         | some _ => some v
         | none => none)
      else alookup g p := by
  induction g with
  | nil =>
    by_cases h : p = k <;> simp [aset, alookup, h]
  | cons kv rest ih =>
    obtain ⟨k', v'⟩ := kv
    by_cases hk : k' = k
    · subst hk
      by_cases hp : p = k'
      · subst hp
        simp [aset, alookup]
      · have hp' : ¬ k' = p := fun h => hp h.symm
        simp [aset, alookup, hp, hp']
    · by_cases hp : p = k'
      · subst hp
        simp [aset, alookup, hk]
      · have hp' : ¬ k' = p := fun h => hp h.symm
        simp [aset, alookup, hk, hp', ih]

theorem aset_lookup_self (g : List (Str × OutcomeRecord)) (k : Str)
    (v : OutcomeRecord) (h : alookup g k = some v) : aset g k v = g := by
  induction g with
  | nil => rfl
  | cons kv rest ih =>
    obtain ⟨k', v'⟩ := kv
    by_cases hk : k' = k
    · subst hk
      simp [alookup] at h
      simp [aset, h]
    · simp only [alookup, hk, if_false] at h
      simp [aset, hk, ih h]

theorem aset_mem (g : List (Str × OutcomeRecord)) (k : Str)
    (v : OutcomeRecord) :
    ∀ kv ∈ aset g k v, kv ∈ g ∨ kv = (k, v) := by
  induction g with
  | nil =>
    intro kv h
    simp [aset] at h
  | cons kv' rest ih =>
    obtain ⟨k', v'⟩ := kv'
    intro kv h
    by_cases hk : k' = k
    · subst hk
      simp only [aset, if_pos rfl] at h
      rcases List.mem_cons.mp h with h | h
      · exact Or.inr (by simp [h])
      · exact Or.inl (List.mem_cons_of_mem _ h)
    · simp only [aset, hk, if_false] at h
      rcases List.mem_cons.mp h with h | h
      · exact Or.inl (by simp [h])
      · rcases ih kv h with h' | h'
        · exact Or.inl (List.mem_cons_of_mem _ h')
        · exact Or.inr h'

theorem alookup_none_iff (g : List (Str × OutcomeRecord)) (p : Str) :
    alookup g p = none ↔ p ∉ g.map Prod.fst := by
  induction g with
  | nil => simp [alookup]
  | cons kv rest ih =>
    obtain ⟨k', v'⟩ := kv
    by_cases h : k' = p
    · subst h
      refine iff_of_false ?_ ?_
      · intro hn
        simp only [alookup, if_pos rfl] at hn
        cases hn
      · intro hn
        exact hn (List.mem_map_of_mem Prod.fst (List.mem_cons_self _ _))
    · simp only [alookup, h, if_false, List.map_cons, List.mem_cons]
      rw [ih]
      constructor
      · intro hn hc
        rcases hc with hc | hc
        · exact h hc.symm
        · exact hn hc
      · intro hn
        exact fun hc => hn (Or.inr hc)

theorem alookup_some_mem (g : List (Str × OutcomeRecord)) (k : Str)
    (v : OutcomeRecord) (h : alookup g k = some v) :
    ∃ kv, kv ∈ g ∧ kv.1 = k ∧ kv.2 = v := by
  induction g with
  | nil => cases h
  | cons kv' rest ih =>
    obtain ⟨k', v'⟩ := kv'
    by_cases hk : k' = k
    · subst hk
      simp only [alookup, if_pos rfl] at h
      cases h
      exact ⟨(k', v), by simp, rfl, rfl⟩
    · simp only [alookup, hk, if_false] at h
      obtain ⟨kv, hkv, h1, h2⟩ := ih h
      exact ⟨kv, List.mem_cons_of_mem _ hkv, h1, h2⟩

theorem alookup_of_mem_nodup (g : List (Str × OutcomeRecord))
    (hg : (g.map Prod.fst).Nodup) :
    ∀ kv ∈ g, alookup g kv.1 = some kv.2 := by
  induction g with
  | nil =>
    intro kv h
    simp at h
  | cons kv' rest ih =>
    obtain ⟨k', v'⟩ := kv'
    intro kv h
    rcases List.mem_cons.mp h with h | h
    · subst h
      simp [alookup]
    · have hk : ¬ k' = kv.1 := by
        intro he
        have hmem : kv.1 ∈ rest.map Prod.fst :=
          List.mem_map_of_mem Prod.fst h
        rw [← he] at hmem
        exact (List.nodup_cons.mp hg).1 hmem
      simp only [alookup, hk, if_false]
      exact ih (List.nodup_cons.mp hg).2 kv h

/-- A step of the deduplicator when the identifier is already kept:
update in place with the merge rule. -/
theorem dedupStep_found (g : List (Str × OutcomeRecord))
    (row ex : OutcomeRecord) (hp : ¬ row.product_id = [])
    (hex : alookup g row.product_id = some ex) :
    dedupStep g row = aset g row.product_id (merge2 ex row) := by
  unfold dedupStep merge2
  simp only [List.isEmpty_iff, hp, if_false, hex]
  split
  · rfl
  · split
    · rfl
    · exact (aset_lookup_self g row.product_id ex hex).symm

/-- A step of the deduplicator when the identifier is new: append. -/
theorem dedupStep_notfound (g : List (Str × OutcomeRecord))
    (row : OutcomeRecord) (hp : ¬ row.product_id = [])
    (hnone : alookup g row.product_id = none) :
    dedupStep g row = g ++ [(row.product_id, row)] := by
  unfold dedupStep
  simp only [List.isEmpty_iff, hp, if_false, hnone]

theorem goodAcc_dedupStep (g : List (Str × OutcomeRecord))
    (row : OutcomeRecord) (hg : GoodAcc g)
    (hrow : ¬ row.product_id = []) : GoodAcc (dedupStep g row) := by
  obtain ⟨hnd, hmem⟩ := hg
  cases hex : alookup g row.product_id with
  | none =>
    rw [dedupStep_notfound g row hrow hex]
    constructor
    · simp only [List.map_append, List.map_cons, List.map_nil]
      rw [List.nodup_append]
      refine ⟨hnd, List.nodup_singleton _, ?_⟩
      intro x hx hx'
      simp only [List.mem_singleton] at hx'
      subst hx'
      exact (alookup_none_iff g row.product_id).mp hex hx
    · intro kv hkv
      rcases List.mem_append.mp hkv with h | h
      · exact hmem kv h
      · simp only [List.mem_singleton] at h
        subst h
        exact ⟨rfl, hrow⟩
  | some ex =>
    rw [dedupStep_found g row ex hrow hex]
    constructor
    · rw [aset_map_fst]; exact hnd
    · intro kv hkv
      rcases aset_mem g row.product_id (merge2 ex row) kv hkv with h | h
      · exact hmem kv h
      · subst h
        refine ⟨?_, hrow⟩
        rcases merge2_cases ex row with h' | h'
        · rw [h']
          obtain ⟨kv'', hkv'', h1, h2⟩ :=
            alookup_some_mem g row.product_id ex hex
          have := (hmem kv'' hkv'').1
          rw [h1, h2] at this
          exact this
        · rw [h']

theorem goodAcc_foldl (l : List OutcomeRecord) :
    ∀ g, GoodAcc g → (∀ r ∈ l, ¬ r.product_id = []) →
      GoodAcc (l.foldl dedupStep g) := by
  induction l with
  | nil => intro g hg _; exact hg
  | cons r rs ih =>
    intro g hg hl
    simp only [List.foldl_cons]
    exact ih (dedupStep g r)
      (goodAcc_dedupStep g r hg (hl r (List.mem_cons_self r rs)))
      (fun x hx => hl x (List.mem_cons_of_mem r hx))

theorem newKeys_congr (l : List OutcomeRecord) :
    ∀ seen seen' : List Str, (∀ x, x ∈ seen ↔ x ∈ seen') →
      newKeys seen l = newKeys seen' l := by
  induction l with
  | nil => intro _ _ _; rfl
  | cons r rs ih =>
    intro seen seen' hiff
    show (if r.product_id = [] ∨ r.product_id ∈ seen then newKeys seen rs
        else r.product_id :: newKeys (r.product_id :: seen) rs) =
      (if r.product_id = [] ∨ r.product_id ∈ seen' then newKeys seen' rs
        else r.product_id :: newKeys (r.product_id :: seen') rs)
    by_cases h : r.product_id = [] ∨ r.product_id ∈ seen
    · have h' : r.product_id = [] ∨ r.product_id ∈ seen' := by
        rcases h with h | h
        · exact Or.inl h
        · exact Or.inr ((hiff _).mp h)
      rw [if_pos h, if_pos h']
      exact ih seen seen' hiff
    · have h' : ¬ (r.product_id = [] ∨ r.product_id ∈ seen') := by
        intro hc
        rcases hc with hc | hc
        · exact h (Or.inl hc)
        · exact h (Or.inr ((hiff _).mpr hc))
      rw [if_neg h, if_neg h']
      rw [ih (r.product_id :: seen) (r.product_id :: seen')
        (fun x => by simp [hiff x])]

theorem newKeys_cons_skip (seen : List Str) (r : OutcomeRecord)
    (rs : List OutcomeRecord) (h : r.product_id = [] ∨ r.product_id ∈ seen) :
    newKeys seen (r :: rs) = newKeys seen rs := by
  show (if r.product_id = [] ∨ r.product_id ∈ seen then newKeys seen rs
      else r.product_id :: newKeys (r.product_id :: seen) rs) = newKeys seen rs
  rw [if_pos h]

theorem newKeys_cons_keep (seen : List Str) (r : OutcomeRecord)
    (rs : List OutcomeRecord)
    (h : ¬ (r.product_id = [] ∨ r.product_id ∈ seen)) :
    newKeys seen (r :: rs) =
      r.product_id :: newKeys (r.product_id :: seen) rs := by
  show (if r.product_id = [] ∨ r.product_id ∈ seen then newKeys seen rs
      else r.product_id :: newKeys (r.product_id :: seen) rs) = _
  rw [if_neg h]

theorem map_fst_foldl_dedupStep (l : List OutcomeRecord) :
    ∀ g, (∀ r ∈ l, ¬ r.product_id = []) →
      (l.foldl dedupStep g).map Prod.fst =
        g.map Prod.fst ++ newKeys (g.map Prod.fst) l := by
  induction l with
  | nil => intro g _; simp [newKeys]
  | cons r rs ih =>
    intro g hl
    have hr : ¬ r.product_id = [] := hl r (List.mem_cons_self r rs)
    have hrs : ∀ x ∈ rs, ¬ x.product_id = [] :=
      fun x hx => hl x (List.mem_cons_of_mem r hx)
    simp only [List.foldl_cons]
    cases hex : alookup g r.product_id with
    | none =>
      have hmem : r.product_id ∉ g.map Prod.fst :=
        (alookup_none_iff g r.product_id).mp hex
      rw [dedupStep_notfound g r hr hex, ih _ hrs,
        newKeys_cons_keep _ _ _ (by simp [hr, hmem])]
      simp only [List.map_append, List.map_cons, List.map_nil]
      rw [newKeys_congr rs (g.map Prod.fst ++ [r.product_id])
        (r.product_id :: g.map Prod.fst) (fun x => by
          rw [List.mem_append, List.mem_singleton, List.mem_cons]
          exact or_comm)]
      simp
    | some ex =>
      have hmem : r.product_id ∈ g.map Prod.fst := by
        by_contra hc
        rw [← alookup_none_iff g r.product_id] at hc
        rw [hc] at hex
        cases hex
      rw [dedupStep_found g r ex hr hex, ih _ hrs, aset_map_fst,
        newKeys_cons_skip _ _ _ (Or.inr hmem)]

theorem mem_newKeys (l : List OutcomeRecord) :
    ∀ (seen : List Str) (p : Str),
      (∀ r ∈ l, ¬ r.product_id = []) →
      (p ∈ newKeys seen l ↔
        p ∉ seen ∧ p ∈ l.map (fun r => r.product_id)) := by
  induction l with
  | nil => intro seen p _; simp [newKeys]
  | cons r rs ih =>
    intro seen p hl
    have hr : ¬ r.product_id = [] := hl r (List.mem_cons_self r rs)
    have hrs : ∀ x ∈ rs, ¬ x.product_id = [] :=
      fun x hx => hl x (List.mem_cons_of_mem r hx)
    by_cases h : r.product_id = [] ∨ r.product_id ∈ seen
    · have hseen : r.product_id ∈ seen := by
        rcases h with h | h
        · exact absurd h hr
        · exact h
      rw [newKeys_cons_skip _ _ _ h, ih seen p hrs]
      simp only [List.map_cons, List.mem_cons]
      constructor
      · rintro ⟨h1, h2⟩
        exact ⟨h1, Or.inr h2⟩
      · rintro ⟨h1, h2 | h2⟩
        · subst h2; exact absurd hseen h1
        · exact ⟨h1, h2⟩
    · rw [newKeys_cons_keep _ _ _ h, List.mem_cons,
        ih (r.product_id :: seen) p hrs]
      push_neg at h
      simp only [List.map_cons, List.mem_cons]
      constructor
      · rintro (h1 | ⟨h1, h2⟩)
        · subst h1; exact ⟨h.2, Or.inl rfl⟩
        · push_neg at h1
          exact ⟨h1.2, Or.inr h2⟩
      · rintro ⟨h1, h2 | h2⟩
        · exact Or.inl h2
        · by_cases hpe : p = r.product_id
          · exact Or.inl hpe
          · refine Or.inr ⟨?_, h2⟩
            push_neg
            exact ⟨hpe, h1⟩

theorem alookup_foldl_dedupStep (l : List OutcomeRecord) :
    ∀ (g : List (Str × OutcomeRecord)) (p : Str),
      (∀ r ∈ l, ¬ r.product_id = []) →
      alookup (l.foldl dedupStep g) p =
        match alookup g p with
        | some a =>
          some ((l.filter (fun r => decide (r.product_id = p))).foldl merge2 a)
        | none => chooseFor p l := by
  induction l with
  | nil =>
    intro g p _
    cases h : alookup g p <;> simp [h, chooseFor]
  | cons r rs ih =>
    intro g p hl
    have hr : ¬ r.product_id = [] := hl r (List.mem_cons_self r rs)
    have hrs : ∀ x ∈ rs, ¬ x.product_id = [] :=
      fun x hx => hl x (List.mem_cons_of_mem r hx)
    simp only [List.foldl_cons]
    cases hex : alookup g r.product_id with
    | none =>
      rw [dedupStep_notfound g r hr hex, ih _ p hrs, alookup_append]
      by_cases hp : r.product_id = p
      · subst hp
        rw [hex]
        dsimp only
        rw [if_pos rfl]
        dsimp only
        unfold chooseFor
        rw [List.filter_cons, if_pos (by simp)]
      · cases hgp : alookup g p with
        | some a =>
          dsimp only
          rw [List.filter_cons, if_neg (by simp [hp])]
        | none =>
          dsimp only
          rw [if_neg hp]
          dsimp only
          unfold chooseFor
          rw [List.filter_cons, if_neg (by simp [hp])]
    | some ex =>
      rw [dedupStep_found g r ex hr hex, ih _ p hrs, alookup_aset]
      by_cases hp : p = r.product_id
      · subst hp
        rw [if_pos rfl, hex]
        dsimp only
        rw [List.filter_cons, if_pos (by simp), List.foldl_cons]
      · rw [if_neg hp]
        have hne : ¬ r.product_id = p := fun h => hp h.symm
        cases hgp : alookup g p with
        | some a =>
          dsimp only
          rw [List.filter_cons, if_neg (by simp [hne])]
        | none =>
          dsimp only
          unfold chooseFor
          rw [List.filter_cons, if_neg (by simp [hne])]

/-- **C5.** Over rows with nonempty identifiers the deduplicator keeps
exactly one record per distinct `product_id` (first part: the kept ids
are exactly the input ids, each once), and the kept record for an id is
the in-order fold of that id's rows under the merge rule `merge2` —
a named record beats a nameless one, a named `success` record beats a
named record of any other status, and otherwise the first-seen record
is kept.  In particular a nameless `no_name_found` record merged with a
named `success` record yields the latter. -/
theorem c5_merge_rule :
    (∀ l : List OutcomeRecord, (∀ r ∈ l, ¬ r.product_id = []) →
      ((deduplicate_by_product_id l).map (fun r => r.product_id)).Nodup ∧
      (∀ p : Str,
        p ∈ (deduplicate_by_product_id l).map (fun r => r.product_id) ↔
          p ∈ l.map (fun r => r.product_id)) ∧
      (∀ r ∈ deduplicate_by_product_id l,
        chooseFor r.product_id l = some r)) ∧
    deduplicate_by_product_id [c5RecNoName, c5RecSuccess] =
      [c5RecSuccess] := by
  constructor
  · intro l hl
    have hGA : GoodAcc (l.foldl dedupStep []) :=
      goodAcc_foldl l [] ⟨List.nodup_nil, by simp⟩ hl
    obtain ⟨hnd, hmem⟩ := hGA
    have hmapeq :
        (deduplicate_by_product_id l).map (fun r => r.product_id) =
          (l.foldl dedupStep []).map Prod.fst := by
      unfold deduplicate_by_product_id
      rw [List.map_map]
      exact List.map_congr_left (fun kv hkv => (hmem kv hkv).1)
    refine ⟨?_, ?_, ?_⟩
    · rw [hmapeq]; exact hnd
    · intro p
      rw [hmapeq, map_fst_foldl_dedupStep l [] hl]
      simp only [List.map_nil, List.nil_append]
      rw [mem_newKeys l [] p hl]
      simp
    · intro r hr
      unfold deduplicate_by_product_id at hr
      obtain ⟨kv, hkv, hkv2⟩ := List.mem_map.mp hr
      have hlook := alookup_of_mem_nodup _ hnd kv hkv
      have hchar := alookup_foldl_dedupStep l [] kv.1 hl
      rw [hlook] at hchar
      dsimp only [alookup] at hchar
      rw [← hkv2, (hmem kv hkv).1]
      exact hchar.symm
  · decide

/-- **C5 witness.** The general statement instantiated at the concrete
two-record scenario. -/
theorem c5_merge_rule_witness :
    ((deduplicate_by_product_id [c5RecNoName, c5RecSuccess]).map
      (fun r => r.product_id)).Nodup ∧
    chooseFor c5RecSuccess.product_id [c5RecNoName, c5RecSuccess] =
      some c5RecSuccess :=
  ⟨(c5_merge_rule.1 [c5RecNoName, c5RecSuccess] (by decide)).1,
   (c5_merge_rule.1 [c5RecNoName, c5RecSuccess] (by decide)).2.2
     c5RecSuccess (by decide)⟩

theorem strContains_iff_isInfix (needle : Str) :
    ∀ hay : Str, strContains hay needle = true ↔ needle <:+: hay := by
  intro hay
  induction hay with
  | nil =>
    simp only [strContains, List.isEmpty_iff]
    constructor
    · intro h; simp [h]
    · intro h
      simpa using List.sublist_nil.mp h.sublist
  | cons c t ih =>
    simp only [strContains, Bool.or_eq_true]
    rw [List.infix_cons_iff, ih, List.isPrefixOf_iff_prefix]

theorem takeBefore_isPrefix (sep : Str) : ∀ s : Str, takeBefore sep s <+: s := by
  intro s
  induction s with
  | nil => simp [takeBefore]
  | cons c t ih =>
    unfold takeBefore
    split
    · exact List.nil_prefix
    · exact List.cons_prefix_cons.mpr ⟨rfl, ih⟩

theorem not_contains_of_isInfix {s t needle : Str}
    (h : strContains s needle = false) (hinf : t <:+: s) :
    strContains t needle = false := by
  by_contra hc
  rw [Bool.not_eq_false, strContains_iff_isInfix] at hc
  rw [← Bool.not_eq_true, strContains_iff_isInfix] at h
  exact h (hc.trans hinf)

theorem takeBefore_not_contains (sep : Str) (hsep : sep ≠ []) :
    ∀ s : Str, strContains (takeBefore sep s) sep = false := by
  intro s
  induction s with
  | nil =>
    simp [takeBefore, strContains, List.isEmpty_iff, hsep]
  | cons c t ih =>
    unfold takeBefore
    split
    · simp [strContains, List.isEmpty_iff, hsep]
    · rename_i hpre
      rw [← Bool.not_eq_true, strContains_iff_isInfix]
      intro hinf
      rcases List.infix_cons_iff.mp hinf with h | h
      · have h2 : c :: takeBefore sep t <+: c :: t :=
          List.cons_prefix_cons.mpr ⟨rfl, takeBefore_isPrefix sep t⟩
        exact hpre (List.isPrefixOf_iff_prefix.mpr (h.trans h2))
      · rw [← strContains_iff_isInfix] at h
        rw [ih] at h
        cases h

theorem pyStrip_isInfix (s : Str) : pyStrip s <:+: s :=
  (List.rdropWhile_prefix _ _).isInfix.trans (List.dropWhile_suffix _).isInfix

theorem pyStripChars_isInfix (chars : List Char) (s : Str) :
    pyStripChars chars s <:+: s :=
  (List.rdropWhile_prefix _ _).isInfix.trans (List.dropWhile_suffix _).isInfix

theorem head_dropWhile_false (p : Char → Bool) :
    ∀ (l : Str) (c : Char), (l.dropWhile p).head? = some c → p c = false := by
  intro l
  induction l with
  | nil => intro c h; cases h
  | cons d t ih =>
    intro c h
    rw [List.dropWhile_cons] at h
    by_cases hd : p d
    · rw [if_pos hd] at h
      exact ih c h
    · rw [if_neg hd] at h
      cases h
      simpa using hd

theorem head_eq_of_isPrefix {a b : Str} (h : a <+: b) (hne : a ≠ []) :
    a.head? = b.head? := by
  obtain ⟨t, rfl⟩ := h
  cases a with
  | nil => exact absurd rfl hne
  | cons x xs => simp

theorem head_pyStrip_false (s : Str) (c : Char)
    (h : (pyStrip s).head? = some c) : pyIsSpace c = false := by
  have hne : pyStrip s ≠ [] := by
    intro he
    rw [he] at h
    cases h
  have heq : (pyStrip s).head? = (s.dropWhile pyIsSpace).head? :=
    head_eq_of_isPrefix (List.rdropWhile_prefix _ _) hne
  rw [heq] at h
  exact head_dropWhile_false pyIsSpace s c h

theorem getLast_rdropWhile_false (p : Char → Bool) (l : Str) (c : Char)
    (h : (List.rdropWhile p l).getLast? = some c) : p c = false := by
  rw [List.rdropWhile] at h
  rw [List.getLast?_reverse] at h
  exact head_dropWhile_false p l.reverse c h

theorem getLast_pyStrip_false (s : Str) (c : Char)
    (h : (pyStrip s).getLast? = some c) : pyIsSpace c = false :=
  getLast_rdropWhile_false pyIsSpace _ c h

theorem head_pyStripChars_false (chars : List Char) (s : Str) (c : Char)
    (h : (pyStripChars chars s).head? = some c) : chars.contains c = false := by
  have hne : pyStripChars chars s ≠ [] := by
    intro he
    rw [he] at h
    cases h
  have heq : (pyStripChars chars s).head? =
      (s.dropWhile (fun c => chars.contains c)).head? :=
    head_eq_of_isPrefix (List.rdropWhile_prefix _ _) hne
  rw [heq] at h
  exact head_dropWhile_false _ s c h

theorem getLast_pyStripChars_false (chars : List Char) (s : Str) (c : Char)
    (h : (pyStripChars chars s).getLast? = some c) :
    chars.contains c = false :=
  getLast_rdropWhile_false _ _ c h

theorem pairsOK_tail (c : Char) (s : Str) (h : PairsOK (c :: s)) :
    PairsOK s := by
  cases s with
  | nil => trivial
  | cons d t => exact h.2

theorem pairsOK_append_right (a : Str) :
    ∀ b : Str, PairsOK (a ++ b) → PairsOK b := by
  induction a with
  | nil => intro b h; exact h
  | cons x a' ih =>
    intro b h
    exact ih b (pairsOK_tail x (a' ++ b) h)

theorem pairsOK_append_left (a : Str) :
    ∀ b : Str, PairsOK (a ++ b) → PairsOK a := by
  induction a with
  | nil => intro _ _; trivial
  | cons x a' ih =>
    intro b h
    cases a' with
    | nil => trivial
    | cons y a'' =>
      exact ⟨h.1, ih b h.2⟩

theorem pairsOK_isInfix {s t : Str} (h : PairsOK s) (hinf : t <:+: s) :
    PairsOK t := by
  obtain ⟨u, v, huv⟩ := hinf
  rw [← huv, List.append_assoc] at h
  exact pairsOK_append_left t v (pairsOK_append_right u (t ++ v) h)

theorem pairsOK_of_all_false (s : Str)
    (h : ∀ c ∈ s, pyIsSpace c = false) : PairsOK s := by
  induction s with
  | nil => trivial
  | cons c t ih =>
    cases t with
    | nil => trivial
    | cons d t' =>
      refine ⟨?_, ih (fun x hx => h x (List.mem_cons_of_mem c hx))⟩
      intro hc
      rw [h c (List.mem_cons_self c _)] at hc
      cases hc.1

theorem pairsOK_append_boundary (a : Str) :
    ∀ b : Str, PairsOK a → PairsOK b →
      (∀ x y, a.getLast? = some x → b.head? = some y →
        ¬ (pyIsSpace x = true ∧ pyIsSpace y = true)) →
      PairsOK (a ++ b) := by
  induction a with
  | nil => intro b _ hb _; exact hb
  | cons x a' ih =>
    intro b ha hb hxy
    cases a' with
    | nil =>
      cases b with
      | nil => trivial
      | cons y b' =>
        refine ⟨?_, hb⟩
        exact hxy x y (by simp) (by simp)
    | cons z a'' =>
      refine ⟨ha.1, ?_⟩
      exact ih b ha.2 hb (fun u v hu hv => hxy u v (by
        rw [List.getLast?_cons_cons]
        exact hu) hv)

/-- Stripping whitespace from a string whose whitespace characters are
all plain spaces and never adjacent yields a `Tidy` string. -/
theorem tidy_pyStrip_of (s : Str)
    (hplain : ∀ c ∈ s, pyIsSpace c = true → c = ' ')
    (hpairs : PairsOK s) : Tidy (pyStrip s) := by
  refine ⟨?_, ?_, ?_, ?_⟩
  · intro c hc hws
    exact hplain c ((pyStrip_isInfix s).subset hc) hws
  · intro c hc
    exact head_pyStrip_false s c hc
  · intro c hc
    exact getLast_pyStrip_false s c hc
  · exact pairsOK_isInfix hpairs (pyStrip_isInfix s)

/-- Stripping the `" -|•"` character set from such a string also yields
a `Tidy` string: a remaining edge character is not in the set, hence not
a space, and by plainness not whitespace at all. -/
theorem tidy_pyStripChars_of (s : Str)
    (hplain : ∀ c ∈ s, pyIsSpace c = true → c = ' ')
    (hpairs : PairsOK s) : Tidy (pyStripChars brandStripChars s) := by
  refine ⟨?_, ?_, ?_, ?_⟩
  · intro c hc hws
    exact hplain c ((pyStripChars_isInfix _ s).subset hc) hws
  · intro c hc
    have hnc := head_pyStripChars_false brandStripChars s c hc
    by_contra hws
    rw [Bool.not_eq_false] at hws
    have hmem : c ∈ pyStripChars brandStripChars s := by
      cases hx : pyStripChars brandStripChars s with
      | nil => rw [hx] at hc; cases hc
      | cons a b =>
        rw [hx] at hc
        simp at hc
        simp [hx, hc]
    have := hplain c ((pyStripChars_isInfix _ s).subset hmem) hws
    subst this
    simp [brandStripChars] at hnc
  · intro c hc
    have hnc := getLast_pyStripChars_false brandStripChars s c hc
    by_contra hws
    rw [Bool.not_eq_false] at hws
    have hmem : c ∈ pyStripChars brandStripChars s :=
      List.mem_of_mem_getLast? hc
    have := hplain c ((pyStripChars_isInfix _ s).subset hmem) hws
    subst this
    simp [brandStripChars] at hnc
  · exact pairsOK_isInfix hpairs (pyStripChars_isInfix _ s)

theorem wordsAux_spec :
    ∀ (s : Str) (cur : Str), cur ≠ [] →
      wordsAux cur s =
        (cur.reverse ++ s.takeWhile (fun d => !(pyIsSpace d))) ::
          wordsOf (s.dropWhile (fun d => !(pyIsSpace d))) := by
  intro s
  induction s with
  | nil =>
    intro cur hcur
    simp [wordsAux, List.isEmpty_iff, hcur, wordsOf]
  | cons d s' ih =>
    intro cur hcur
    by_cases hd : pyIsSpace d
    · have h1 : wordsAux cur (d :: s') = cur.reverse :: wordsAux [] s' := by
        simp [wordsAux, hd, List.isEmpty_iff, hcur]
      have h2 : (d :: s').takeWhile (fun d => !(pyIsSpace d)) = [] := by
        simp [List.takeWhile_cons, hd]
      have h3 : (d :: s').dropWhile (fun d => !(pyIsSpace d)) = d :: s' := by
        simp [List.dropWhile_cons, hd]
      rw [h1, h2, h3, List.append_nil]
      have h4 : wordsOf (d :: s') = wordsOf s' := by
        simp [wordsOf, wordsAux, hd]
      rw [h4]
      rfl
    · have h1 : wordsAux cur (d :: s') = wordsAux (d :: cur) s' := by
        simp [wordsAux, hd]
      have h2 : (d :: s').takeWhile (fun d => !(pyIsSpace d)) =
          d :: s'.takeWhile (fun d => !(pyIsSpace d)) := by
        simp [List.takeWhile_cons, hd]
      have h3 : (d :: s').dropWhile (fun d => !(pyIsSpace d)) =
          s'.dropWhile (fun d => !(pyIsSpace d)) := by
        simp [List.dropWhile_cons, hd]
      rw [h1, h2, h3, ih (d :: cur) (by simp)]
      simp

theorem wordsOf_cons_ws (c : Char) (s : Str) (h : pyIsSpace c = true) :
    wordsOf (c :: s) = wordsOf s := by
  simp [wordsOf, wordsAux, h]

theorem wordsOf_cons_not (c : Char) (s : Str) (h : pyIsSpace c = false) :
    wordsOf (c :: s) =
      (c :: s.takeWhile (fun d => !(pyIsSpace d))) ::
        wordsOf (s.dropWhile (fun d => !(pyIsSpace d))) := by
  have h1 : wordsOf (c :: s) = wordsAux [c] s := by
    simp [wordsOf, wordsAux, h]
  rw [h1, wordsAux_spec s [c] (by simp)]
  rfl

theorem wordsOf_words :
    ∀ (n : Nat) (s : Str), s.length ≤ n →
      ∀ w ∈ wordsOf s, w ≠ [] ∧ ∀ c ∈ w, pyIsSpace c = false := by
  intro n
  induction n with
  | zero =>
    intro s hs
    rw [List.length_eq_zero.mp (Nat.le_zero.mp hs)]
    intro w hw
    cases hw
  | succ n ih =>
    intro s hs w hw
    cases s with
    | nil => cases hw
    | cons c t =>
      by_cases hc : pyIsSpace c
      · rw [wordsOf_cons_ws c t hc] at hw
        exact ih t (by simpa using Nat.le_of_succ_le_succ hs) w hw
      · rw [wordsOf_cons_not c t (by simpa using hc)] at hw
        rcases List.mem_cons.mp hw with hw | hw
        · subst hw
          refine ⟨by simp, ?_⟩
          intro x hx
          rcases List.mem_cons.mp hx with hx | hx
          · subst hx; simpa using hc
          · simpa using List.mem_takeWhile_imp hx
        · refine ih (t.dropWhile fun d => !(pyIsSpace d)) ?_ w hw
          calc (t.dropWhile fun d => !(pyIsSpace d)).length
              ≤ t.length := (List.dropWhile_suffix _).length_le
            _ ≤ n := by simpa using Nat.le_of_succ_le_succ hs

theorem wordsOf_good (s : Str) :
    ∀ w ∈ wordsOf s, w ≠ [] ∧ ∀ c ∈ w, pyIsSpace c = false :=
  wordsOf_words s.length s (le_refl _)

theorem joinWords_cons_of_ne (w : Str) (l : List Str) (h : l ≠ []) :
    joinWords (w :: l) = w ++ ' ' :: joinWords l := by
  cases l with
  | nil => exact absurd rfl h
  | cons w' l' => rfl

theorem joinWords_ne_nil (w : Str) (l : List Str) (hw : w ≠ []) :
    joinWords (w :: l) ≠ [] := by
  cases l with
  | nil => simpa [joinWords]
  | cons w' l' =>
    rw [joinWords_cons_of_ne w (w' :: l') (by simp)]
    simp

theorem tidy_joinWords :
    ∀ ws : List Str,
      (∀ w ∈ ws, w ≠ [] ∧ ∀ c ∈ w, pyIsSpace c = false) →
      Tidy (joinWords ws) := by
  intro ws
  induction ws with
  | nil =>
    intro _
    refine ⟨?_, ?_, ?_, trivial⟩
    · intro c hc
      cases hc
    · intro c hc
      cases hc
    · intro c hc
      cases hc
  | cons w ws' ih =>
    intro h
    obtain ⟨hw_ne, hw_chars⟩ := h w (List.mem_cons_self w ws')
    cases ws' with
    | nil =>
      refine ⟨?_, ?_, ?_, ?_⟩
      · intro c hc hws
        rw [hw_chars c hc] at hws; cases hws
      · intro c hc
        exact hw_chars c (List.mem_of_mem_head? hc)
      · intro c hc
        exact hw_chars c (List.mem_of_mem_getLast? hc)
      · exact pairsOK_of_all_false w hw_chars
    | cons w2 ws'' =>
      obtain ⟨hP, hH, hL, hPA⟩ := ih (fun x hx => h x (List.mem_cons_of_mem w hx))
      have hJne : joinWords (w2 :: ws'') ≠ [] :=
        joinWords_ne_nil w2 ws'' (h w2 (by simp)).1
      rw [joinWords_cons_of_ne w (w2 :: ws'') (by simp)]
      have hhd : (w ++ ' ' :: joinWords (w2 :: ws'')).head? = w.head? :=
        (head_eq_of_isPrefix ⟨' ' :: joinWords (w2 :: ws''), rfl⟩ hw_ne).symm
      refine ⟨?_, ?_, ?_, ?_⟩
      · intro c hc hws
        rcases List.mem_append.mp hc with hc | hc
        · rw [hw_chars c hc] at hws; cases hws
        · rcases List.mem_cons.mp hc with hc | hc
          · exact hc
          · exact hP c hc hws
      · intro c hc
        rw [hhd] at hc
        exact hw_chars c (List.mem_of_mem_head? hc)
      · intro c hc
        rw [List.getLast?_append_of_ne_nil w (by simp)] at hc
        rw [show (' ' :: joinWords (w2 :: ws'')) =
            [' '] ++ joinWords (w2 :: ws'') from rfl,
          List.getLast?_append_of_ne_nil [' '] hJne] at hc
        exact hL c hc
      · refine pairsOK_append_boundary w (' ' :: joinWords (w2 :: ws''))
          (pairsOK_of_all_false w hw_chars) ?_ ?_
        · cases hJ : joinWords (w2 :: ws'') with
          | nil => exact absurd hJ hJne
          | cons j js =>
            refine ⟨?_, ?_⟩
            · intro hc
              have hj : pyIsSpace j = false := hH j (by rw [hJ]; rfl)
              rw [hj] at hc
              cases hc.2
            · rw [← hJ]
              exact hPA
        · intro x y hx _ hxy
          have hxmem := List.mem_of_mem_getLast? hx
          rw [hw_chars x hxmem] at hxy
          cases hxy.1

theorem collapse_tidy (s : Str) : Tidy (collapse s) :=
  tidy_joinWords (wordsOf s) (wordsOf_good s)

theorem collapse_eq_self_len :
    ∀ (n : Nat) (s : Str), s.length ≤ n → Tidy s → collapse s = s := by
  intro n
  induction n with
  | zero =>
    intro s hs _
    rw [List.length_eq_zero.mp (Nat.le_zero.mp hs)]
    rfl
  | succ n ih =>
    intro s hs htidy
    obtain ⟨hplain, hhead, hlast, hpairs⟩ := htidy
    cases s with
    | nil => rfl
    | cons c t =>
      have hc : pyIsSpace c = false := hhead c rfl
      show joinWords (wordsOf (c :: t)) = c :: t
      rw [wordsOf_cons_not c t hc]
      cases hr : t.dropWhile (fun d => !(pyIsSpace d)) with
      | nil =>
        have ht : t.takeWhile (fun d => !(pyIsSpace d)) = t := by
          conv_rhs => rw [← List.takeWhile_append_dropWhile
            (fun d => !(pyIsSpace d)) t]
          rw [hr, List.append_nil]
        rw [ht]
        rfl
      | cons d r' =>
        have hd_q : (fun d => !(pyIsSpace d)) d = false :=
          head_dropWhile_false _ t d (by rw [hr]; rfl)
        have hd_ws : pyIsSpace d = true := by simpa using hd_q
        have hsplit : t = t.takeWhile (fun d => !(pyIsSpace d)) ++ d :: r' := by
          conv_lhs => rw [← List.takeWhile_append_dropWhile
            (fun d => !(pyIsSpace d)) t]
          rw [hr]
        have hd_mem : d ∈ c :: t := by
          refine List.mem_cons_of_mem c ?_
          rw [hsplit]
          exact List.mem_append.mpr (Or.inr (List.mem_cons_self d r'))
        have hd_sp : d = ' ' := hplain d hd_mem hd_ws
        cases hr2 : r' with
        | nil =>
          exfalso
          have hlast2 : (c :: t).getLast? = some d := by
            conv_lhs => rw [hsplit, hr2]
            rw [show c :: (t.takeWhile (fun d => !(pyIsSpace d)) ++ [d]) =
              (c :: t.takeWhile (fun d => !(pyIsSpace d))) ++ [d] from by simp]
            exact List.getLast?_concat _
          have hx := hlast d hlast2
          rw [hd_ws] at hx
          cases hx
        | cons e r'' =>
          have hde : [d, e] <:+: c :: t := by
            refine ⟨c :: t.takeWhile (fun d => !(pyIsSpace d)), r'', ?_⟩
            conv_rhs => rw [hsplit, hr2]
            simp
          have hpde := pairsOK_isInfix hpairs hde
          have he_ws : pyIsSpace e = false := by
            by_contra hce
            rw [Bool.not_eq_false] at hce
            exact hpde.1 ⟨hd_ws, hce⟩
          have hr'_inf : r' <:+: c :: t := by
            refine ⟨c :: t.takeWhile (fun d => !(pyIsSpace d)) ++ [d], [], ?_⟩
            conv_rhs => rw [hsplit]
            simp
          have hr'ne : r' ≠ [] := by rw [hr2]; simp
          have hr'_tidy : Tidy r' := by
            refine ⟨?_, ?_, ?_, ?_⟩
            · intro x hx hxws
              exact hplain x (hr'_inf.subset hx) hxws
            · intro x hx
              rw [hr2] at hx
              cases hx
              exact he_ws
            · intro x hx
              refine hlast x ?_
              have hgl : (c :: t).getLast? = r'.getLast? := by
                have hform : c :: t =
                    (c :: t.takeWhile (fun d => !(pyIsSpace d)) ++ [d]) ++ r' := by
                  conv_lhs => rw [hsplit]
                  simp
                rw [hform]
                exact List.getLast?_append_of_ne_nil _ hr'ne
              rw [hgl]
              exact hx
            · exact pairsOK_isInfix hpairs hr'_inf
          have hlen : r'.length ≤ n := by
            have h1 : t.length ≤ n := by
              simpa using Nat.le_of_succ_le_succ hs
            have h2 : r'.length < t.length := by
              conv_rhs => rw [hsplit]
              simp only [List.length_append, List.length_cons]
              omega
            omega
          have hcoll : collapse r' = r' := ih r' hlen hr'_tidy
          have hwords_ne : wordsOf r' ≠ [] := by
            rw [hr2, wordsOf_cons_not e r'' he_ws]
            simp
          rw [hd_sp, ← hr2, wordsOf_cons_ws ' ' r' (by decide),
            joinWords_cons_of_ne _ _ hwords_ne,
            show joinWords (wordsOf r') = collapse r' from rfl, hcoll]
          conv_rhs => rw [hsplit, hd_sp]
          simp

/-- `collapse` is the identity on `Tidy` strings. -/
theorem collapse_eq_self_of_tidy (s : Str) (h : Tidy s) : collapse s = s :=
  collapse_eq_self_len s.length s (le_refl _) h

theorem sepStep_tidy (t sep : Str) (h : Tidy t) : Tidy (sepStep t sep) := by
  unfold sepStep
  split
  · exact tidy_pyStrip_of _
      (fun c hc hws => h.1 c ((takeBefore_isPrefix sep t).subset hc) hws)
      (pairsOK_isInfix h.2.2.2 (takeBefore_isPrefix sep t).isInfix)
  · exact h

theorem sepStep_isInfix (t sep : Str) : sepStep t sep <:+: t := by
  unfold sepStep
  split
  · exact (pyStrip_isInfix _).trans (takeBefore_isPrefix sep t).isInfix
  · exact List.infix_refl t

theorem sepStep_no (t sep : Str) (hsep : sep ≠ []) :
    strContains (sepStep t sep) sep = false := by
  unfold sepStep
  split
  · exact not_contains_of_isInfix (takeBefore_not_contains sep hsep t)
      (pyStrip_isInfix _)
  · rename_i hcond
    simpa using hcond

theorem foldl_sepStep_tidy (l : List Str) :
    ∀ t, Tidy t → Tidy (l.foldl sepStep t) := by
  induction l with
  | nil => intro t h; exact h
  | cons a l' ih =>
    intro t h
    simp only [List.foldl_cons]
    exact ih (sepStep t a) (sepStep_tidy t a h)

theorem foldl_sepStep_isInfix (l : List Str) :
    ∀ t, l.foldl sepStep t <:+: t := by
  induction l with
  | nil => intro t; exact List.infix_refl t
  | cons a l' ih =>
    intro t
    simp only [List.foldl_cons]
    exact (ih (sepStep t a)).trans (sepStep_isInfix t a)

theorem foldl_sepStep_no (l : List Str) :
    ∀ (t sep : Str), sep ∈ l → sep ≠ [] →
      strContains (l.foldl sepStep t) sep = false := by
  induction l with
  | nil => intro t sep h; cases h
  | cons a l' ih =>
    intro t sep hmem hsep
    simp only [List.foldl_cons]
    rcases List.mem_cons.mp hmem with h | h
    · subst h
      exact not_contains_of_isInfix (sepStep_no t sep hsep)
        (foldl_sepStep_isInfix l' (sepStep t sep))
    · exact ih (sepStep t a) sep h hsep

theorem foldl_sepStep_id (l : List Str) :
    ∀ t, (∀ a ∈ l, strContains t a = false) → l.foldl sepStep t = t := by
  induction l with
  | nil => intro t _; rfl
  | cons a l' ih =>
    intro t h
    simp only [List.foldl_cons]
    have hstep : sepStep t a = t := by
      unfold sepStep
      rw [if_neg]
      rw [h a (List.mem_cons_self a l')]
      simp
    rw [hstep]
    exact ih t (fun x hx => h x (List.mem_cons_of_mem a hx))

theorem prefStep_tidy (t p : Str) (h : Tidy t) : Tidy (prefStep t p) := by
  unfold prefStep
  split
  · exact tidy_pyStrip_of _
      (fun c hc hws => h.1 c ((List.drop_suffix _ t).subset hc) hws)
      (pairsOK_isInfix h.2.2.2 (List.drop_suffix _ t).isInfix)
  · exact h

theorem prefStep_isInfix (t p : Str) : prefStep t p <:+: t := by
  unfold prefStep
  split
  · exact (pyStrip_isInfix _).trans (List.drop_suffix _ t).isInfix
  · exact List.infix_refl t

theorem foldl_prefStep_tidy (l : List Str) :
    ∀ t, Tidy t → Tidy (l.foldl prefStep t) := by
  induction l with
  | nil => intro t h; exact h
  | cons a l' ih =>
    intro t h
    simp only [List.foldl_cons]
    exact ih (prefStep t a) (prefStep_tidy t a h)

theorem foldl_prefStep_isInfix (l : List Str) :
    ∀ t, l.foldl prefStep t <:+: t := by
  induction l with
  | nil => intro t; exact List.infix_refl t
  | cons a l' ih =>
    intro t
    simp only [List.foldl_cons]
    exact (ih (prefStep t a)).trans (prefStep_isInfix t a)

theorem foldl_prefStep_id (l : List Str) :
    ∀ t, (∀ a ∈ l, a.isPrefixOf t = false) → l.foldl prefStep t = t := by
  induction l with
  | nil => intro t _; rfl
  | cons a l' ih =>
    intro t h
    simp only [List.foldl_cons]
    have hstep : prefStep t a = t := by
      unfold prefStep
      rw [if_neg]
      rw [h a (List.mem_cons_self a l')]
      simp
    rw [hstep]
    exact ih t (fun x hx => h x (List.mem_cons_of_mem a hx))

theorem tokStep_tidy (t tok : Str) (h : Tidy t) : Tidy (tokStep t tok) := by
  unfold tokStep
  split
  · exact tidy_pyStripChars_of _
      (fun c hc hws => h.1 c ((List.take_prefix _ t).subset hc) hws)
      (pairsOK_isInfix h.2.2.2 (List.take_prefix _ t).isInfix)
  · exact h

theorem tokStep_isInfix (t tok : Str) : tokStep t tok <:+: t := by
  unfold tokStep
  split
  · exact (pyStripChars_isInfix _ _).trans (List.take_prefix _ t).isInfix
  · exact List.infix_refl t

theorem foldl_tokStep_tidy (l : List Str) :
    ∀ t, Tidy t → Tidy (l.foldl tokStep t) := by
  induction l with
  | nil => intro t h; exact h
  | cons a l' ih =>
    intro t h
    simp only [List.foldl_cons]
    exact ih (tokStep t a) (tokStep_tidy t a h)

theorem foldl_tokStep_isInfix (l : List Str) :
    ∀ t, l.foldl tokStep t <:+: t := by
  induction l with
  | nil => intro t; exact List.infix_refl t
  | cons a l' ih =>
    intro t
    simp only [List.foldl_cons]
    exact (ih (tokStep t a)).trans (tokStep_isInfix t a)

theorem foldl_tokStep_id (l : List Str) :
    ∀ t, (∀ a ∈ l, List.isSuffixOf a (pyLower t) = false) →
      l.foldl tokStep t = t := by
  induction l with
  | nil => intro t _; rfl
  | cons a l' ih =>
    intro t h
    simp only [List.foldl_cons]
    have hstep : tokStep t a = t := by
      unfold tokStep
      rw [if_neg]
      rw [h a (List.mem_cons_self a l')]
      simp
    rw [hstep]
    exact ih t (fun x hx => h x (List.mem_cons_of_mem a hx))

theorem replaceNTR_eq_self_of_plain (s : Str)
    (h : ∀ c ∈ s, pyIsSpace c = true → c = ' ') : replaceNTR s = s := by
  unfold replaceNTR
  have hpt : ∀ c ∈ s,
      (if c = '\n' || c = '\t' || c = '\r' then ' ' else c) = id c := by
    intro c hc
    have hnot : (c = '\n' || c = '\t' || c = '\r') = false := by
      by_contra hbad
      rw [Bool.not_eq_false, Bool.or_eq_true, Bool.or_eq_true] at hbad
      rcases hbad with (h1 | h1) | h1 <;>
        · rw [decide_eq_true_eq] at h1
          subst h1
          exact absurd (h _ hc (by decide)) (by decide)
    rw [hnot]
    rfl
  rw [List.map_congr_left hpt, List.map_id]

/-- **C8 (amended).** The cleaning rules are idempotent on every input
whose once-cleaned form carries no marketing prefix (selector-stage
cleaning) resp. no trailing brand token (structured-data-stage
cleaning): whitespace collapsing and separator truncation always
stabilise after one pass, and under the stated condition the prefix- and
token-stripping passes find nothing left to strip. -/
theorem c8_cleaning_idempotent_guarded :
    (∀ s : Str,
      (∀ p ∈ marketingPrefixes, p.isPrefixOf (cleanSel s) = false) →
      cleanSel (cleanSel s) = cleanSel s) ∧
    (∀ s : Str,
      (∀ tok ∈ brandTokens, List.isSuffixOf tok (pyLower (cleanLd s)) = false) →
      cleanLd (cleanLd s) = cleanLd s) := by
  have hseps_ne : ∀ sep ∈ titleSeps, sep ≠ [] := by decide
  constructor
  · intro s hpref
    have hB : Tidy (sepCut (collapse (replaceNTR s))) :=
      foldl_sepStep_tidy titleSeps (collapse (replaceNTR s))
        (collapse_tidy (replaceNTR s))
    have hC : Tidy (cleanSel s) :=
      foldl_prefStep_tidy marketingPrefixes
        (sepCut (collapse (replaceNTR s))) hB
    have hno : ∀ sep ∈ titleSeps, strContains (cleanSel s) sep = false := by
      intro sep hsep
      exact not_contains_of_isInfix
        (foldl_sepStep_no titleSeps (collapse (replaceNTR s)) sep hsep
          (hseps_ne sep hsep))
        (foldl_prefStep_isInfix marketingPrefixes
          (sepCut (collapse (replaceNTR s))))
    have h1 : replaceNTR (cleanSel s) = cleanSel s :=
      replaceNTR_eq_self_of_plain (cleanSel s) hC.1
    have h2 : collapse (cleanSel s) = cleanSel s :=
      collapse_eq_self_of_tidy (cleanSel s) hC
    have h3 : sepCut (cleanSel s) = cleanSel s :=
      foldl_sepStep_id titleSeps (cleanSel s) hno
    have h4 : prefCut (cleanSel s) = cleanSel s :=
      foldl_prefStep_id marketingPrefixes (cleanSel s) hpref
    show prefCut (sepCut (collapse (replaceNTR (cleanSel s)))) = cleanSel s
    rw [h1, h2, h3, h4]
  · intro s htok
    have hB : Tidy (sepCut (collapse (replaceNTR s))) :=
      foldl_sepStep_tidy titleSeps (collapse (replaceNTR s))
        (collapse_tidy (replaceNTR s))
    have hC : Tidy (cleanLd s) :=
      foldl_tokStep_tidy brandTokens
        (sepCut (collapse (replaceNTR s))) hB
    have hno : ∀ sep ∈ titleSeps, strContains (cleanLd s) sep = false := by
      intro sep hsep
      exact not_contains_of_isInfix
        (foldl_sepStep_no titleSeps (collapse (replaceNTR s)) sep hsep
          (hseps_ne sep hsep))
        (foldl_tokStep_isInfix brandTokens
          (sepCut (collapse (replaceNTR s))))
    have h1 : replaceNTR (cleanLd s) = cleanLd s :=
      replaceNTR_eq_self_of_plain (cleanLd s) hC.1
    have h2 : collapse (cleanLd s) = cleanLd s :=
      collapse_eq_self_of_tidy (cleanLd s) hC
    have h3 : sepCut (cleanLd s) = cleanLd s :=
      foldl_sepStep_id titleSeps (cleanLd s) hno
    have h4 : tokCut (cleanLd s) = cleanLd s :=
      foldl_tokStep_id brandTokens (cleanLd s) htok
    show tokCut (sepCut (collapse (replaceNTR (cleanLd s)))) = cleanLd s
    rw [h1, h2, h3, h4]

/-- **C8 witness.** The guarded idempotence applied to a concrete clean
candidate. -/
theorem c8_cleaning_idempotent_guarded_witness :
    cleanSel (cleanSel c8Nice) = cleanSel c8Nice ∧
    cleanLd (cleanLd c8Nice) = cleanLd c8Nice :=
  ⟨c8_cleaning_idempotent_guarded.1 c8Nice (by decide),
   c8_cleaning_idempotent_guarded.2 c8Nice (by decide)⟩

end Crawler
